import Mathlib

/-!
Verification of the `search` package of the `search_keyword` repository.

The development shallowly embeds the package's pure logic over `List Char`
strings:

* `normalizeURL`, together with a model of the fragment of Go's
  `net/url.Parse` / `URL.Hostname` that the function exercises
  (`parseURL`, `stripPort`, ...).  The parser model covers ASCII inputs
  without percent-escapes, control characters or bracketed (IPv6) hosts;
  within that subset it follows the Go standard library: fragment cut at
  the first `#`, scheme detection and lowercasing, query cut at the first
  `?`, `//`-authority with userinfo split at the last `@` and numeric port
  validation, opaque URLs, and the colon-in-first-path-segment error.
* `linksToCheck`, the link crawler, with the goquery document fetch
  abstracted as an optional list of anchor `href`s.
* the scan operations `Search`, `SearchWithRegx` and `SearchForEmail`
  (and the earlier revision of `Search` as `V1.Search`), with the HTTP
  client and the Go regexp engine abstracted as an explicit environment.

Strings are `List Char` so that all definitions are executable and
structural; Go's `strings` helpers used by the source are modelled by
`goContains`, `goSplit`, `replaceFirst`, etc.
-/

abbrev Str := List Char

/-- `strings.HasPrefix` / `bytes.HasPrefix`: `prefixOfB p s` holds when `p`
is a prefix of `s`. -/
def prefixOfB : Str → Str → Bool
  | [], _ => true
  | _ :: _, [] => false
  | a :: as, b :: bs => a == b && prefixOfB as bs

/-- `strings.Contains(s, sub)`: `sub` occurs as a contiguous substring of
`s`. -/
def goContains : Str → Str → Bool
  | [], sub => prefixOfB sub []
  | c :: t, sub => prefixOfB sub (c :: t) || goContains t sub

/-- `strings.Split(s, sep)` for a one-character separator: always returns
`count sep s + 1` pieces; `goSplit sep [] = [[]]` like Go's
`Split("", sep) = [""]`. -/
def goSplit (sep : Char) : Str → List Str
  | [] => [[]]
  | c :: cs =>
    if c == sep then [] :: goSplit sep cs
    else
      match goSplit sep cs with
      | [] => [[c]]
      | h :: t => (c :: h) :: t

/-- `strings.Cut(s, sep)` for a one-character separator, keeping only the
part before the first `sep` and the part after it (the separator itself is
dropped).  When `sep` does not occur the whole string is the first part. -/
def cutDrop (sep : Char) : Str → Str × Str
  | [] => ([], [])
  | c :: cs =>
    if c == sep then ([], cs)
    else
      let r := cutDrop sep cs
      (c :: r.1, r.2)

/-- `net/url`'s `split(s, sep, false)`: split at the first `sep`, keeping
the separator at the head of the second part. -/
def splitKeep (sep : Char) : Str → Str × Str
  | [] => ([], [])
  | c :: cs =>
    if c == sep then ([], c :: cs)
    else
      let r := splitKeep sep cs
      (c :: r.1, r.2)

/-- Split around the LAST occurrence of `sep` (Go's
`strings.LastIndex`-based splits); `none` when `sep` does not occur. -/
def lastSplit (sep : Char) : Str → Option (Str × Str)
  | [] => none
  | c :: cs =>
    match lastSplit sep cs with
    | some (a, b) => some (c :: a, b)
    | none => if c == sep then some ([], cs) else none

/-- `strings.Replace(s, old, new, 1)`: replace the first occurrence of
`old` (Go inserts `new` at the start when `old` is empty). -/
def replaceFirstAux (old new : Str) : Str → Str
  | [] => []
  | c :: cs =>
    if prefixOfB old (c :: cs) then new ++ (c :: cs).drop old.length
    else c :: replaceFirstAux old new cs

/-- `strings.Replace(s, old, new, 1)`. -/
def replaceFirst (s old new : Str) : Str :=
  if old.isEmpty then new ++ s else replaceFirstAux old new s

/-- ASCII upper-case letters paired with their lower-case forms. -/
def upperLowerTable : List (Char × Char) :=
  "ABCDEFGHIJKLMNOPQRSTUVWXYZ".toList.zip "abcdefghijklmnopqrstuvwxyz".toList

/-- ASCII lowering of one character (`strings.ToLower` restricted to the
ASCII subset the model covers). -/
def lowerChar (c : Char) : Char :=
  match upperLowerTable.find? (fun p => p.1 == c) with
  | some p => p.2
  | none => c

/-- Scheme characters accepted by `net/url`'s `getScheme` after the first
position: ALPHA / DIGIT / `+` / `-` / `.`. -/
def isSchemeChar (c : Char) : Bool :=
  c.isAlpha || c.isDigit || c == '+' || c == '-' || c == '.'

/-- Errors of the modelled `net/url.Parse` fragment. -/
inductive ParseErr where
  /-- "missing protocol scheme": the URL starts with `:`. -/
  | missingScheme
  /-- "first path segment in URL cannot contain colon". -/
  | colonSegment
  /-- "invalid port ... after host": non-numeric text after the last `:`
  of the authority. -/
  | invalidPort
  /-- bracketed (IPv6) hosts are outside the modelled subset. -/
  | bracketHost
deriving DecidableEq, Repr

/-- The components of a parsed URL that `normalizeURL` reads: `Scheme`
(lowercased), `Host` (still carrying a port, as in Go's `URL.Host`) and
`Path`.  Query and fragment are discarded by the parse, as
`normalizeURL` never reads them. -/
structure URLParts where
  scheme : Str
  host : Str
  path : Str
deriving DecidableEq, Repr

/-- `net/url`'s `getScheme`: scan for a `:` introduced by valid scheme
characters; a digit/`+`/`-`/`.` in the first position, or any other
character, means "no scheme" and the whole input is the remainder.
A leading `:` is the "missing protocol scheme" error.  The scheme is
lowercased as in `url.Parse`. -/
def getSchemeAux (s0 acc : Str) : Str → Except ParseErr (Str × Str)
  | [] => .ok ([], s0)
  | c :: cs =>
    if c.isAlpha then getSchemeAux s0 (acc ++ [c]) cs
    else if c.isDigit || c == '+' || c == '-' || c == '.' then
      if acc.isEmpty then .ok ([], s0) else getSchemeAux s0 (acc ++ [c]) cs
    else if c == ':' then
      if acc.isEmpty then .error .missingScheme else .ok (acc.map lowerChar, cs)
    else .ok ([], s0)

/-- `getScheme(rawURL)`. -/
def getScheme (s : Str) : Except ParseErr (Str × Str) :=
  getSchemeAux s [] s

/-- `net/url`'s `parseHost` on the modelled subset: bracketed hosts are
out of scope, and the text after the last `:` must be numeric (possibly
empty) or the parse fails with "invalid port". The port stays part of the
host, as in Go's `URL.Host`. -/
def parseHost (h : Str) : Except ParseErr Str :=
  if h.head? == some '[' then .error .bracketHost
  else
    match lastSplit ':' h with
    | none => .ok h
    | some (_, port) => if port.all (·.isDigit) then .ok h else .error .invalidPort

/-- `net/url`'s `parseAuthority`: userinfo before the LAST `@` is split
off (and not used by `normalizeURL`), the rest is the host. -/
def parseAuthority (auth : Str) : Except ParseErr Str :=
  match lastSplit '@' auth with
  | none => parseHost auth
  | some (_user, host) => parseHost host

/-- `URL.Hostname()`: strip a valid (numeric, possibly empty) port after
the last `:`. -/
def stripPort (h : Str) : Str :=
  match lastSplit ':' h with
  | none => h
  | some (pre, port) => if port.all (·.isDigit) then pre else h

/-- The fragment of `net/url.Parse` exercised by `normalizeURL` (see the
module docstring for the modelled subset): cut the fragment at the first
`#`, detect the scheme, cut the query at the first `?`, then either an
opaque URL (scheme present, remainder not starting with `/`), the
colon-in-first-path-segment error (no scheme), a `//` authority followed
by the path, or a bare path. -/
def parseURL (s : Str) : Except ParseErr URLParts :=
  let noFrag := (cutDrop '#' s).1
  match getScheme noFrag with
  | .error e => .error e
  | .ok (scheme, schemeRest) =>
    let rest := (cutDrop '?' schemeRest).1
    if !scheme.isEmpty && rest.head? != some '/' then
      .ok ⟨scheme, [], []⟩
    else if scheme.isEmpty && rest.head? != some '/'
        && (rest.takeWhile (fun c => c != '/')).contains ':' then
      .error .colonSegment
    else if rest.take 2 == ['/', '/'] then
      match parseAuthority (splitKeep '/' (rest.drop 2)).1 with
      | .error e => .error e
      | .ok host => .ok ⟨scheme, host, (splitKeep '/' (rest.drop 2)).2⟩
    else
      .ok ⟨scheme, [], rest⟩

/-- The error values the scanner surfaces (`ErrURLEmpty`,
`ErrDomainMissing`, `ErrUnresolvedOrTimedOut`), a wrapped `url.Parse`
error, and the opaque transport error returned by the HTTP client (the
Go code returns the client's `error` value itself). `nilResponse` marks
the path in the part_001 revision of `Search` that dereferences a nil
`*http.Response`. -/
inductive GoErr where
  | errURLEmpty
  | errDomainMissing
  | parseErr (e : ParseErr)
  | transport
  | errUnresolvedOrTimedOut
  | nilResponse
deriving DecidableEq, Repr

/-- The `path` variable of `normalizeURL` after lines 142-145 of
part_002: the hostname, or — when it is empty — the URL path with every
`/` removed. -/
def canonHost (u : URLParts) : Str :=
  let path := stripPort u.host
  if path.isEmpty then u.path.filter (fun c => c != '/') else path

/-- Lines 153-165 of part_002's `normalizeURL`: the canonical string
built from the parsed URL once validation has passed.  The
`goContains path "://"` test is the dead branch of the source (the
slash-free `path` variable can never contain `://`), kept as written. -/
def canonicalOf (u : URLParts) : Str :=
  let path := canonHost u
  let scheme := if u.scheme.isEmpty then "http".toList else u.scheme
  let s := scheme ++ ':' :: path
  let s := if !(goContains path "://".toList) then scheme ++ ':' :: '/' :: '/' :: path else s
  if 1 < u.path.count '/' then s ++ u.path else s

/-- `normalizeURL` (src/unnamed/part_002 lines 130-166; identical in
part_001): empty input fails, parse errors propagate, the host (or, when
the host is absent, the path with every `/` removed) must have at least
two dot-separated labels, the scheme defaults to `http`, and the original
path is appended only when it contains more than one `/`. -/
def normalizeURL (url : Str) : Except GoErr Str :=
  if url.isEmpty then .error .errURLEmpty
  else
    match parseURL url with
    | .error e => .error (.parseErr e)
    | .ok u =>
      if (goSplit '.' (canonHost u)).length < 2 then .error .errDomainMissing
      else .ok (canonicalOf u)

deriving instance DecidableEq for Except

/-- The `Keyword` field of a `Result` (an `interface{}` in the source): a
literal keyword string or a compiled regular expression, identified by
its pattern string. -/
inductive KeywordVal where
  | str (s : Str)
  | regex (pattern : Str)
deriving DecidableEq, Repr

/-- The `Context` field of a `Result` (an `interface{}` in the source): a
markup snippet for the keyword scans, a list of matches for the email
scan. -/
inductive CtxVal where
  | str (s : Str)
  | list (l : List Str)
deriving DecidableEq, Repr

/-- `search.Result` (part_002 lines 47-55). -/
structure Result where
  keyword : KeywordVal
  url : Str
  found : Bool
  context : CtxVal
deriving DecidableEq, Repr

/-- One interaction with the `sema` channel gate (`sema.load` sends,
`sema.release` receives). -/
inductive GateEvent where
  | acquire
  | release
deriving DecidableEq, Repr

/-- The effectful surroundings of one scan call: the HTTP client and the
Go regexp engine, abstracted as functions. -/
structure ScanEnv where
  /-- Outcome of `sc.makeRequest(URL)` (`none` = transport error). -/
  fetch : Str → Option Str
  /-- Outcome of `goquery.NewDocument(baseURL)` inside `linksToCheck`:
  `none` = fetch/parse failure, otherwise the `href` attribute of each
  `body a` anchor in document order. -/
  anchors : Option (List Str)
  /-- `regexp.MustCompile(pat).Match(body)`. -/
  rmatch : Str → Str → Bool
  /-- `regexp.MustCompile(pat).Find(body)` (empty when no match). -/
  rfind : Str → Str → Str
  /-- `regexp.MustCompile(pat).FindStringSubmatch(body)`: the first match
  followed by its capture groups, `[]` when there is no match. -/
  submatch : Str → Str → List Str

/-- The `Scanner` configuration that the modelled control flow reads.
The HTTP client and buffer pool live in `ScanEnv`; the `sema` channel is
modelled by the `GateEvent` trace and `gateRun`; the logging flags only
produce log output. -/
structure Scanner where
  depthLimit : Int

/-- `inSlice` (part_002 lines 95-102). -/
def inSlice (tar : Str) (s : List Str) : Bool :=
  s.any (fun i => i == tar)

/-- The body of the `doc.Find("body a").Each` callback in `linksToCheck`
(part_002 lines 116-126). -/
def eachAnchor (baseURL : Str) (_limit : Int) (moreURLS : List Str) (link : Str) : List Str :=
  let moreURLS :=
    if goContains link baseURL && !inSlice link moreURLS then moreURLS ++ [link] else moreURLS
  -- `if len(moreURLS) >= limit { return }`: this `return` exits only the
  -- current Each callback invocation (of which it is already the last
  -- statement), not the Each iteration, so it never stops the
  -- collection; `limit` therefore has no effect inside the callback.
  moreURLS

/-- `linksToCheck` (part_002 lines 104-128): `[baseURL]` when the limit
is zero or the document fetch/parse fails, otherwise the fold of the
anchor callback over all anchors. -/
def linksToCheck (baseURL : Str) (limit : Int) (doc : Option (List Str)) : List Str :=
  let moreURLS := [baseURL]
  if limit == 0 then moreURLS
  else
    match doc with
    | none => moreURLS
    | some anchors => anchors.foldl (eachAnchor baseURL limit) moreURLS

/-- The search regexp built by `Search` (part_002 lines 217-225): the
keyword itself when it already contains `(?i)`, otherwise `"(?i)"`
prepended — no escaping is applied. -/
def buildSearchPattern (keyword : Str) : Str :=
  if goContains keyword "(?i)".toList then keyword else "(?i)".toList ++ keyword

/-- `fmt.Sprintf("(?i)(<[^<]+)(%s)([^>]+>)", kw)`. -/
def contextPattern (kw : Str) : Str :=
  "(?i)(<[^<]+)(".toList ++ kw ++ ")([^>]+>)".toList

/-- The context regexp built by `Search` (part_002 lines 217-225): the
enclosing-tag pattern around the keyword, with a leading `(?i)` stripped
from the keyword first when present. -/
def buildContextPattern (keyword : Str) : Str :=
  if goContains keyword "(?i)".toList then
    contextPattern (replaceFirst keyword "(?i)".toList [])
  else contextPattern keyword

/-- `newLineReplacer.Replace`: the rules `"\r\n"→""`, `"\n"→""`,
`"\r"→""` jointly delete every CR and LF character and nothing else. -/
def newLineReplace (s : Str) : Str :=
  s.filter (fun c => !(c == '\r' || c == '\n'))

/-- The fetch-and-retry step shared by the loops of `Search`,
`SearchForEmail` and `SearchWithRegx` (part_002 lines 233-243, 281-291,
336-346): on a failed request, give up when the URL already contains
`https:`, otherwise rewrite the first `http` to `https` and retry once;
a second failure surfaces the transport error.  On success it returns
the (possibly rewritten) URL together with the body. -/
def fetchWithRetry (env : ScanEnv) (url : Str) : Except GoErr (Str × Str) :=
  match env.fetch url with
  | some body => .ok (url, body)
  | none =>
    if goContains url "https:".toList then .error .transport
    else
      match env.fetch (replaceFirst url "http".toList "https".toList) with
      | some body => .ok (replaceFirst url "http".toList "https".toList, body)
      | none => .error .transport

/-- The per-link loop of `Search` (part_002 lines 228-251): fetch (with
the https retry), match, extract the context only when found, append one
`Result`; a fetch failure stops the loop and surfaces its error. -/
def searchLoop (env : ScanEnv) (keyword spat cpat : Str) :
    List Str → List Result → List Result × Option GoErr
  | [], acc => (acc, none)
  | u :: rest, acc =>
    match fetchWithRetry env u with
    | .error e => (acc, some e)
    | .ok (u2, body) =>
      let found := env.rmatch spat body
      let context := if found then newLineReplace (env.rfind cpat body) else []
      searchLoop env keyword spat cpat rest
        (acc ++ [⟨.str keyword, u2, found, .str context⟩])

/-- What one scan call produces: the results it appended, the error it
returned, and its interactions with the `sema` gate in order. -/
structure ScanOutcome where
  results : List Result
  err : Option GoErr
  events : List GateEvent
deriving DecidableEq, Repr

/-- `Scanner.Search` (part_002 lines 204-254).  `sc.sema.load()` runs
first and `defer sc.sema.release()` runs when the call returns, so every
path's event trace is `[acquire, release]`. -/
def Search (sc : Scanner) (env : ScanEnv) (URL keyword : Str) : ScanOutcome :=
  match normalizeURL URL with
  | .error e => ⟨[], some e, [.acquire, .release]⟩
  | .ok nu =>
    let spat := buildSearchPattern keyword
    let cpat := buildContextPattern keyword
    let r := searchLoop env keyword spat cpat (linksToCheck nu sc.depthLimit env.anchors) []
    ⟨r.1, r.2, [.acquire, .release]⟩

/-- `Scanner.SearchWithRegx` (part_002 lines 319-356): no crawling, a
single fetch (with the https retry) of the normalized URL, and the
context pattern built from the compiled pattern's string. -/
def SearchWithRegx (env : ScanEnv) (URL pattern : Str) : ScanOutcome :=
  match normalizeURL URL with
  | .error e => ⟨[], some e, [.acquire, .release]⟩
  | .ok nu =>
    match fetchWithRetry env nu with
    | .error e => ⟨[], some e, [.acquire, .release]⟩
    | .ok (u2, body) =>
      let found := env.rmatch pattern body
      let context := if found then newLineReplace (env.rfind (contextPattern pattern) body) else []
      ⟨[⟨.regex pattern, u2, found, .str context⟩], none, [.acquire, .release]⟩

/-- `EmailRegex` (part_002 lines 35-36), the default email pattern. -/
def EmailRegex : Str :=
  "([a-z0-9!#$%&\x27*+\\/=?^_\x7b|\x7d~-]+(?:\\.[a-z0-9!#$%&\x27*+\\/=?^_\x7b|\x7d~-]+)*(@|\\sat\\s)(?:[a-z0-9](?:[a-z0-9-]*[a-z0-9])?(\\.|\\sdot\\s))+[a-z0-9](?:[a-z0-9-]*[a-z0-9])?)".toList

/-- The body of the inner `for _, f := range filters` loop of
`SearchForEmail` (part_002 lines 301-305): append `e` when it does not
contain the filter, is not already collected, and is longer than one
character. -/
def emailFilterStep (e : Str) (c : List Str) (f : Str) : List Str :=
  if !goContains e f && !inSlice e c && e.length > 1 then c ++ [e] else c

/-- The body of the `for _, e := range emails` loop of `SearchForEmail`
(part_002 lines 299-312). -/
def emailStep (filters : List Str) (clean : List Str) (e : Str) : List Str :=
  if filters.length > 0 then filters.foldl (emailFilterStep e) clean
  else if e.length > 1 && !inSlice e clean then clean ++ [e]
  else clean

/-- The `clean` slice built by `SearchForEmail` from the submatch list
(part_002 lines 294-313): with a non-empty filter list an entry is
appended once per filter it does NOT contain (deduplicated by `inSlice`),
otherwise it is appended when longer than one character and new. -/
def buildClean (filters : List Str) (emails : List Str) : List Str :=
  if emails.length > 0 then emails.foldl (emailStep filters) [] else []

/-- The per-link loop of `SearchForEmail` (part_002 lines 276-315). -/
def emailLoop (env : ScanEnv) (pat : Str) (filters : List Str) :
    List Str → List Result → List Result × Option GoErr
  | [], acc => (acc, none)
  | u :: rest, acc =>
    match fetchWithRetry env u with
    | .error e => (acc, some e)
    | .ok (u2, body) =>
      let emails := env.submatch pat body
      emailLoop env pat filters rest
        (acc ++ [⟨.str [], u2, !emails.isEmpty, .list (buildClean filters emails)⟩])

/-- `Scanner.SearchForEmail` (part_002 lines 256-317): `EmailRegex` is
substituted when no pattern is supplied, then normalize, crawl, and run
the email loop. -/
def SearchForEmail (sc : Scanner) (env : ScanEnv) (URL : Str) (emailRegex : Option Str)
    (filters : List Str) : ScanOutcome :=
  let pat := match emailRegex with | none => EmailRegex | some p => p
  match normalizeURL URL with
  | .error e => ⟨[], some e, [.acquire, .release]⟩
  | .ok nu =>
    let r := emailLoop env pat filters (linksToCheck nu sc.depthLimit env.anchors) []
    ⟨r.1, r.2, [.acquire, .release]⟩

namespace V1

/-- The per-link loop of the part_001 revision of `Search` (part_001
lines 254-300): a first failed request sets `shouldTestSSL`; the https
retry happens only when the URL does not already contain `https:`; when
the retry also fails (`shouldErrorOut`) the loop records a not-found
`Result` for the rewritten URL and returns `ErrUnresolvedOrTimedOut`.
When the URL already contains `https:` and the first request failed,
`res` is nil and `defer res.Body.Close()` dereferences it (modelled as
the `nilResponse` outcome). -/
def searchLoop (env : ScanEnv) (keyword spat cpat : Str) :
    List Str → List Result → List Result × Option GoErr
  | [], acc => (acc, none)
  | u :: rest, acc =>
    match env.fetch u with
    | some body =>
      let found := env.rmatch spat body
      let context := if found then newLineReplace (env.rfind cpat body) else []
      searchLoop env keyword spat cpat rest (acc ++ [⟨.str keyword, u, found, .str context⟩])
    | none =>
      if !(goContains u "https:".toList) then
        let u2 := replaceFirst u "http".toList "https".toList
        match env.fetch u2 with
        | some body =>
          let found := env.rmatch spat body
          let context := if found then newLineReplace (env.rfind cpat body) else []
          searchLoop env keyword spat cpat rest (acc ++ [⟨.str keyword, u2, found, .str context⟩])
        | none =>
          (acc ++ [⟨.str keyword, u2, false, .str []⟩], some .errUnresolvedOrTimedOut)
      else (acc, some .nilResponse)

/-- `Scanner.Search` of the part_001 revision (part_001 lines 230-303);
normalization, pattern construction and crawling are the same as in
part_002, only the fetch-failure handling of the loop differs. -/
def Search (sc : Scanner) (env : ScanEnv) (URL keyword : Str) : ScanOutcome :=
  match normalizeURL URL with
  | .error e => ⟨[], some e, [.acquire, .release]⟩
  | .ok nu =>
    let spat := buildSearchPattern keyword
    let cpat := buildContextPattern keyword
    let r := searchLoop env keyword spat cpat (linksToCheck nu sc.depthLimit env.anchors) []
    ⟨r.1, r.2, [.acquire, .release]⟩

end V1

/-- Wellformedness of a scheme as produced by `getScheme`: nonempty,
begins with a letter, every character is a scheme character, and
lowercasing is a no-op (the parser already lowered it). -/
def schemeOK (σ : Str) : Prop :=
  σ ≠ [] ∧ (∀ c ∈ σ, isSchemeChar c = true) ∧ σ.map lowerChar = σ
    ∧ (∀ c, σ.head? = some c → c.isAlpha = true)

/-- Go `regexp.QuoteMeta`'s special characters. -/
def isRegexMeta (c : Char) : Bool :=
  c == '\\' || c == '.' || c == '+' || c == '*' || c == '?' || c == '(' || c == ')'
    || c == '|' || c == '[' || c == ']' || c == '\x7b' || c == '\x7d' || c == '^' || c == '$'

/-- Go `regexp.QuoteMeta`: escape every regex metacharacter with a
backslash. -/
def quoteMeta (s : Str) : Str :=
  s.foldr (fun c r => if isRegexMeta c then '\\' :: c :: r else c :: r) []

/-- Modelled from the spec: "the component first escapes/wraps it into a
case-insensitive pattern" — the escaped case-insensitive pattern the
spec describes, to compare with the source's `buildSearchPattern`. -/
def specSearchPattern (keyword : Str) : Str :=
  "(?i)".toList ++ quoteMeta keyword

/-- The `sema chan struct{}` of capacity `n` (part_002 lines 90-93,
184): running a completed schedule of gate events.  A send (`acquire`)
is only possible when fewer than `n` slots are taken and a receive
(`release`) only when some slot is taken; schedules violating that are
not runnable (`none`), which models the blocking channel. -/
def gateRun (n : Nat) : List GateEvent → Nat → Option Nat
  | [], occ => some occ
  | .acquire :: es, occ => if occ < n then gateRun n es (occ + 1) else none
  | .release :: es, occ => if 0 < occ then gateRun n es (occ - 1) else none

/-! ### Utility lemmas about the modelled `strings` helpers -/

theorem inSlice_iff {x : Str} {s : List Str} : inSlice x s = true ↔ x ∈ s := by
  simp [inSlice, List.any_eq_true, beq_iff_eq, exists_eq_right]

theorem prefixOfB_mem {p s : Str} (h : prefixOfB p s = true) : ∀ c ∈ p, c ∈ s := by
  induction p generalizing s with
  | nil => simp
  | cons a as ih =>
    cases s with
    | nil => simp [prefixOfB] at h
    | cons b bs =>
      simp only [prefixOfB, Bool.and_eq_true, beq_iff_eq] at h
      obtain ⟨rfl, h2⟩ := h
      intro c hc
      rcases List.mem_cons.mp hc with rfl | hc
      · exact List.mem_cons_self _ _
      · exact List.mem_cons_of_mem _ (ih h2 c hc)

theorem goContains_mem {s sub : Str} (h : goContains s sub = true) : ∀ c ∈ sub, c ∈ s := by
  induction s with
  | nil =>
    cases sub with
    | nil => simp
    | cons a as => simp [goContains, prefixOfB] at h
  | cons a t ih =>
    simp only [goContains, Bool.or_eq_true] at h
    rcases h with h | h
    · exact prefixOfB_mem h
    · exact fun c hc => List.mem_cons_of_mem _ (ih h c hc)

theorem cutDrop_not_mem {sep : Char} {l : Str} (h : sep ∉ l) : cutDrop sep l = (l, []) := by
  induction l with
  | nil => rfl
  | cons c cs ih =>
    have hb : (c == sep) = false := by
      rw [beq_eq_false_iff_ne]
      rintro rfl
      exact h (List.mem_cons_self _ _)
    simp only [cutDrop, hb]
    rw [if_neg Bool.false_ne_true, ih (fun hm => h (List.mem_cons_of_mem _ hm))]

theorem cutDrop_append {sep : Char} {a : Str} (b : Str) (h : sep ∉ a) :
    cutDrop sep (a ++ sep :: b) = (a, b) := by
  induction a with
  | nil => simp [cutDrop]
  | cons c cs ih =>
    have hb : (c == sep) = false := by
      rw [beq_eq_false_iff_ne]
      rintro rfl
      exact h (List.mem_cons_self _ _)
    rw [List.cons_append]
    simp only [cutDrop, hb]
    rw [if_neg Bool.false_ne_true, ih (fun hm => h (List.mem_cons_of_mem _ hm))]

theorem splitKeep_append_left {sep : Char} {a : Str} (b : Str) (h : sep ∉ a) :
    splitKeep sep (a ++ b) = (a ++ (splitKeep sep b).1, (splitKeep sep b).2) := by
  induction a with
  | nil => simp
  | cons c cs ih =>
    have hb : (c == sep) = false := by
      rw [beq_eq_false_iff_ne]
      rintro rfl
      exact h (List.mem_cons_self _ _)
    rw [List.cons_append]
    simp only [splitKeep, hb]
    rw [if_neg Bool.false_ne_true, ih (fun hm => h (List.mem_cons_of_mem _ hm))]
    rfl

theorem splitKeep_not_mem {sep : Char} {l : Str} (h : sep ∉ l) : splitKeep sep l = (l, []) := by
  have h2 := splitKeep_append_left [] h
  rw [List.append_nil] at h2
  simpa [splitKeep] using h2

theorem splitKeep_append_sep {sep : Char} {a : Str} (b : Str) (h : sep ∉ a) :
    splitKeep sep (a ++ sep :: b) = (a, sep :: b) := by
  rw [splitKeep_append_left (sep :: b) h]
  simp [splitKeep]

theorem splitKeep_fst_append_snd (sep : Char) (l : Str) :
    (splitKeep sep l).1 ++ (splitKeep sep l).2 = l := by
  induction l with
  | nil => rfl
  | cons c cs ih =>
    by_cases hc : (c == sep) = true
    · simp [splitKeep, hc]
    · have hb : (c == sep) = false := by simpa using hc
      simp only [splitKeep, hb]
      rw [if_neg Bool.false_ne_true]
      simpa using ih

theorem splitKeep_fst_not_mem (sep : Char) (l : Str) : sep ∉ (splitKeep sep l).1 := by
  induction l with
  | nil => simp [splitKeep]
  | cons c cs ih =>
    by_cases hc : (c == sep) = true
    · simp [splitKeep, hc]
    · have hb : (c == sep) = false := by simpa using hc
      simp only [splitKeep, hb]
      rw [if_neg Bool.false_ne_true]
      intro hm
      rcases List.mem_cons.mp hm with rfl | hm
      · simp at hb
      · exact ih hm

theorem splitKeep_snd_head (sep : Char) (l : Str) :
    (splitKeep sep l).2 = [] ∨ (splitKeep sep l).2.head? = some sep := by
  induction l with
  | nil => left; rfl
  | cons c cs ih =>
    by_cases hc : (c == sep) = true
    · right
      have hceq : c = sep := by simpa using hc
      simp [splitKeep, hc, hceq]
    · have hb : (c == sep) = false := by simpa using hc
      simp only [splitKeep, hb]
      rw [if_neg Bool.false_ne_true]
      exact ih

theorem splitKeep_fst_subset {sep : Char} {l : Str} {c : Char}
    (h : c ∈ (splitKeep sep l).1) : c ∈ l := by
  rw [← splitKeep_fst_append_snd sep l]
  exact List.mem_append_left _ h

theorem splitKeep_snd_subset {sep : Char} {l : Str} {c : Char}
    (h : c ∈ (splitKeep sep l).2) : c ∈ l := by
  rw [← splitKeep_fst_append_snd sep l]
  exact List.mem_append_right _ h

theorem lastSplit_eq_none {sep : Char} {l : Str} : lastSplit sep l = none ↔ sep ∉ l := by
  induction l with
  | nil => simp [lastSplit]
  | cons c cs ih =>
    simp only [lastSplit]
    cases h : lastSplit sep cs with
    | some p =>
      obtain ⟨a, b⟩ := p
      have hmem : sep ∈ cs := by
        by_contra hn
        rw [ih.mpr hn] at h
        exact Option.noConfusion h
      simp [List.mem_cons, hmem]
    | none =>
      have hn : sep ∉ cs := ih.mp h
      by_cases hc : (c == sep) = true
      · have hceq : c = sep := by simpa using hc
        subst hceq
        simp
      · have hcne : ¬c = sep := by simpa using hc
        have hns : ¬sep = c := fun hh => hcne hh.symm
        simp [hc, List.mem_cons, hn, hns]

theorem lastSplit_eq_some {sep : Char} {l a b : Str} (h : lastSplit sep l = some (a, b)) :
    l = a ++ sep :: b ∧ sep ∉ b := by
  induction l generalizing a b with
  | nil => simp [lastSplit] at h
  | cons c cs ih =>
    simp only [lastSplit] at h
    cases h2 : lastSplit sep cs with
    | some p =>
      obtain ⟨a2, b2⟩ := p
      rw [h2] at h
      simp only [Option.some_inj, Prod.mk.injEq] at h
      obtain ⟨rfl, rfl⟩ := h
      obtain ⟨hcs, hb⟩ := ih h2
      constructor
      · rw [hcs]; rfl
      · exact hb
    | none =>
      rw [h2] at h
      by_cases hc : (c == sep) = true
      · simp only [hc, if_true, Option.some_inj, Prod.mk.injEq] at h
        obtain ⟨rfl, rfl⟩ := h
        have hceq : c = sep := by simpa using hc
        subst hceq
        exact ⟨rfl, lastSplit_eq_none.mp h2⟩
      · simp [hc] at h

theorem goSplit_ne_nil (sep : Char) (l : Str) : goSplit sep l ≠ [] := by
  induction l with
  | nil => simp [goSplit]
  | cons c cs ih =>
    by_cases hc : (c == sep) = true
    · simp [goSplit, hc]
    · have hb : (c == sep) = false := by simpa using hc
      simp only [goSplit, hb]
      rw [if_neg Bool.false_ne_true]
      cases h : goSplit sep cs with
      | nil => exact absurd h ih
      | cons x xs => simp

theorem goSplit_two_iff {sep : Char} {l : Str} : 2 ≤ (goSplit sep l).length ↔ sep ∈ l := by
  induction l with
  | nil => simp [goSplit]
  | cons c cs ih =>
    by_cases hc : (c == sep) = true
    · have hceq : c = sep := by simpa using hc
      subst hceq
      have h2 : 1 ≤ (goSplit c cs).length := List.length_pos.mpr (goSplit_ne_nil c cs)
      simp only [goSplit, beq_self_eq_true, if_true, List.length_cons, List.mem_cons, true_or,
        iff_true]
      omega
    · have hb : (c == sep) = false := by simpa using hc
      have hcne : ¬sep = c := by
        have hcc : ¬c = sep := by simpa using hc
        exact fun hh => hcc hh.symm
      simp only [goSplit, hb]
      rw [if_neg Bool.false_ne_true]
      cases h : goSplit sep cs with
      | nil => exact absurd h (goSplit_ne_nil sep cs)
      | cons x xs =>
        rw [h] at ih
        simp only [List.length_cons, List.mem_cons, hcne, false_or]
        simpa using ih

/-! ### Lemmas about ASCII lowercasing and scheme characters -/

theorem lowerChar_find_none {c : Char}
    (h : upperLowerTable.find? (fun p => p.1 == c) = none) : lowerChar c = c := by
  simp [lowerChar, h]

theorem lowerChar_find_some {c : Char} {p : Char × Char}
    (h : upperLowerTable.find? (fun q => q.1 == c) = some p) : lowerChar c = p.2 := by
  simp [lowerChar, h]

theorem table_snd_fixed : ∀ p ∈ upperLowerTable, lowerChar p.2 = p.2 := by decide

theorem table_snd_alpha : ∀ p ∈ upperLowerTable, (p.2).isAlpha = true := by decide

theorem lowerChar_idem (c : Char) : lowerChar (lowerChar c) = lowerChar c := by
  cases h : upperLowerTable.find? (fun q => q.1 == c) with
  | none => rw [lowerChar_find_none h, lowerChar_find_none h]
  | some p =>
    rw [lowerChar_find_some h]
    exact table_snd_fixed p (List.mem_of_find?_eq_some h)

theorem isAlpha_lowerChar {c : Char} (h : c.isAlpha = true) : (lowerChar c).isAlpha = true := by
  cases hf : upperLowerTable.find? (fun q => q.1 == c) with
  | none => rw [lowerChar_find_none hf]; exact h
  | some p =>
    rw [lowerChar_find_some hf]
    exact table_snd_alpha p (List.mem_of_find?_eq_some hf)

theorem isSchemeChar_lowerChar {c : Char} (h : isSchemeChar c = true) :
    isSchemeChar (lowerChar c) = true := by
  cases hf : upperLowerTable.find? (fun q => q.1 == c) with
  | none => rw [lowerChar_find_none hf]; exact h
  | some p =>
    rw [lowerChar_find_some hf]
    have ha := table_snd_alpha p (List.mem_of_find?_eq_some hf)
    simp [isSchemeChar, ha]

theorem isSchemeChar_of_alpha {c : Char} (h : c.isAlpha = true) : isSchemeChar c = true := by
  simp [isSchemeChar, h]

theorem isSchemeChar_ne {c : Char} (h : isSchemeChar c = true) :
    c ≠ ':' ∧ c ≠ '/' ∧ c ≠ '?' ∧ c ≠ '#' ∧ c ≠ '@' := by
  refine ⟨?_, ?_, ?_, ?_, ?_⟩ <;> rintro rfl <;> exact absurd h (by decide)

/-! ### Lemmas about `getScheme` -/

theorem digitish_schemeChar {c : Char}
    (hd : (c.isDigit || c == '+' || c == '-' || c == '.') = true) : isSchemeChar c = true := by
  simp only [Bool.or_eq_true] at hd
  rcases hd with ((hd | hd) | hd) | hd <;> simp [isSchemeChar, hd]

theorem getSchemeAux_sound {s0 l : Str} : ∀ {acc σ r : Str},
    (∀ c ∈ acc, isSchemeChar c = true) →
    (∀ c, acc.head? = some c → c.isAlpha = true) →
    getSchemeAux s0 acc l = .ok (σ, r) →
    σ = [] ∨ schemeOK σ := by
  induction l with
  | nil =>
    intro acc σ r _ _ h
    simp only [getSchemeAux, Except.ok.injEq, Prod.mk.injEq] at h
    exact Or.inl h.1.symm
  | cons c cs ih =>
    intro acc σ r h1 h2 h
    simp only [getSchemeAux] at h
    by_cases hca : c.isAlpha = true
    · rw [if_pos hca] at h
      refine ih ?_ ?_ h
      · intro x hx
        rcases List.mem_append.mp hx with hx | hx
        · exact h1 x hx
        · rw [List.mem_singleton.mp hx]
          exact isSchemeChar_of_alpha hca
      · intro x hx
        cases acc with
        | nil =>
          simp only [List.nil_append, List.head?_cons, Option.some_inj] at hx
          rw [← hx]; exact hca
        | cons a as =>
          simp only [List.cons_append, List.head?_cons, Option.some_inj] at hx
          rw [← hx]; exact h2 a rfl
    · rw [if_neg hca] at h
      by_cases hd : (c.isDigit || c == '+' || c == '-' || c == '.') = true
      · rw [if_pos hd] at h
        by_cases hae : acc.isEmpty = true
        · rw [if_pos hae] at h
          simp only [Except.ok.injEq, Prod.mk.injEq] at h
          exact Or.inl h.1.symm
        · rw [if_neg hae] at h
          refine ih ?_ ?_ h
          · intro x hx
            rcases List.mem_append.mp hx with hx | hx
            · exact h1 x hx
            · rw [List.mem_singleton.mp hx]
              exact digitish_schemeChar hd
          · intro x hx
            cases acc with
            | nil => simp at hae
            | cons a as =>
              simp only [List.cons_append, List.head?_cons, Option.some_inj] at hx
              rw [← hx]; exact h2 a rfl
      · rw [if_neg hd] at h
        by_cases hcolon : (c == ':') = true
        · rw [if_pos hcolon] at h
          by_cases hae : acc.isEmpty = true
          · rw [if_pos hae] at h
            exact absurd h (by simp)
          · rw [if_neg hae] at h
            simp only [Except.ok.injEq, Prod.mk.injEq] at h
            obtain ⟨hσ, hr⟩ := h
            have haccne : acc ≠ [] := by simpa [List.isEmpty_iff] using hae
            refine Or.inr ⟨?_, ?_, ?_, ?_⟩
            · rw [← hσ]
              simpa [ne_eq, List.map_eq_nil_iff] using haccne
            · intro x hx
              rw [← hσ] at hx
              rcases List.mem_map.mp hx with ⟨y, hy, rfl⟩
              exact isSchemeChar_lowerChar (h1 y hy)
            · rw [← hσ, List.map_map]
              exact List.map_congr_left fun a _ => lowerChar_idem a
            · intro x hx
              rw [← hσ] at hx
              cases acc with
              | nil => exact absurd rfl haccne
              | cons a as =>
                simp only [List.map_cons, List.head?_cons, Option.some_inj] at hx
                rw [← hx]
                exact isAlpha_lowerChar (h2 a rfl)
        · rw [if_neg hcolon] at h
          simp only [Except.ok.injEq, Prod.mk.injEq] at h
          exact Or.inl h.1.symm

theorem getSchemeAux_rest_mem {s0 l : Str} : ∀ {acc σ r : Str},
    getSchemeAux s0 acc l = .ok (σ, r) → ∀ c ∈ r, c ∈ s0 ∨ c ∈ l := by
  induction l with
  | nil =>
    intro acc σ r h
    simp only [getSchemeAux, Except.ok.injEq, Prod.mk.injEq] at h
    exact fun c hc => Or.inl (by rw [h.2]; exact hc)
  | cons c cs ih =>
    intro acc σ r h
    simp only [getSchemeAux] at h
    by_cases hca : c.isAlpha = true
    · rw [if_pos hca] at h
      exact fun x hx => (ih h x hx).imp id (List.mem_cons_of_mem _)
    · rw [if_neg hca] at h
      by_cases hd : (c.isDigit || c == '+' || c == '-' || c == '.') = true
      · rw [if_pos hd] at h
        by_cases hae : acc.isEmpty = true
        · rw [if_pos hae] at h
          simp only [Except.ok.injEq, Prod.mk.injEq] at h
          exact fun x hx => Or.inl (by rw [h.2]; exact hx)
        · rw [if_neg hae] at h
          exact fun x hx => (ih h x hx).imp id (List.mem_cons_of_mem _)
      · rw [if_neg hd] at h
        by_cases hcolon : (c == ':') = true
        · rw [if_pos hcolon] at h
          by_cases hae : acc.isEmpty = true
          · rw [if_pos hae] at h
            exact absurd h (by simp)
          · rw [if_neg hae] at h
            simp only [Except.ok.injEq, Prod.mk.injEq] at h
            exact fun x hx => Or.inr (List.mem_cons_of_mem _ (by rw [h.2]; exact hx))
        · rw [if_neg hcolon] at h
          simp only [Except.ok.injEq, Prod.mk.injEq] at h
          exact fun x hx => Or.inl (by rw [h.2]; exact hx)

theorem getSchemeAux_build {σ : Str} (r s0 : Str) : ∀ {acc : Str},
    (∀ c ∈ σ, isSchemeChar c = true) →
    (∀ c, (acc ++ σ).head? = some c → c.isAlpha = true) →
    acc ++ σ ≠ [] →
    getSchemeAux s0 acc (σ ++ ':' :: r) = .ok ((acc ++ σ).map lowerChar, r) := by
  induction σ with
  | nil =>
    intro acc _ hhead hne
    rw [List.append_nil] at hne ⊢
    simp only [List.nil_append, getSchemeAux]
    have h1 : (':' : Char).isAlpha = false := by decide
    have h2 : ((':' : Char).isDigit || ':' == '+' || ':' == '-' || ':' == '.') = false := by
      decide
    rw [h1, if_neg Bool.false_ne_true, h2, if_neg Bool.false_ne_true, if_pos (by decide),
      if_neg (by simpa [List.isEmpty_iff] using hne)]
  | cons c cs ih =>
    intro acc hchars hhead hne
    have hcs : isSchemeChar c = true := hchars c (List.mem_cons_self _ _)
    rw [List.cons_append]
    simp only [getSchemeAux]
    by_cases hca : c.isAlpha = true
    · rw [if_pos hca]
      have hrec := @ih (acc ++ [c])
        (fun x hx => hchars x (List.mem_cons_of_mem _ hx))
        (fun x hx => hhead x (by rw [List.append_assoc] at hx; simpa using hx))
        (by simp)
      rw [hrec]
      simp
    · rw [if_neg hca]
      have hd : (c.isDigit || c == '+' || c == '-' || c == '.') = true := by
        simp only [isSchemeChar, Bool.or_eq_true] at hcs
        rcases hcs with (((h | h) | h) | h) | h
        · exact absurd h hca
        all_goals simp [h]
      rw [if_pos hd]
      have haccne : acc ≠ [] := by
        rintro rfl
        exact hca (hhead c (by simp))
      rw [if_neg (by simpa [List.isEmpty_iff] using haccne)]
      have hrec := @ih (acc ++ [c])
        (fun x hx => hchars x (List.mem_cons_of_mem _ hx))
        (fun x hx => hhead x (by rw [List.append_assoc] at hx; simpa using hx))
        (by simp)
      rw [hrec]
      simp

theorem getScheme_sound {s σ r : Str} (h : getScheme s = .ok (σ, r)) : σ = [] ∨ schemeOK σ :=
  getSchemeAux_sound (by simp) (by simp) h

theorem getScheme_rest_mem {s σ r : Str} (h : getScheme s = .ok (σ, r)) : ∀ c ∈ r, c ∈ s :=
  fun c hc => (getSchemeAux_rest_mem h c hc).elim id id

theorem getScheme_build {σ : Str} (r : Str) (hσ : schemeOK σ) :
    getScheme (σ ++ ':' :: r) = .ok (σ, r) := by
  obtain ⟨hne, hchars, hlow, hhead⟩ := hσ
  have := @getSchemeAux_build σ r (σ ++ ':' :: r) [] hchars (by simpa using hhead)
    (by simpa using hne)
  rw [getScheme, this]
  simp only [List.nil_append]
  rw [hlow]

/-! ### Facts about the pieces a successful `parseURL` returns -/

theorem cutDrop_fst_not_mem (sep : Char) (l : Str) : sep ∉ (cutDrop sep l).1 := by
  induction l with
  | nil => simp [cutDrop]
  | cons c cs ih =>
    by_cases hc : (c == sep) = true
    · simp [cutDrop, hc]
    · have hb : (c == sep) = false := by simpa using hc
      simp only [cutDrop, hb]
      rw [if_neg Bool.false_ne_true]
      intro hm
      rcases List.mem_cons.mp hm with rfl | hm
      · simp at hb
      · exact ih hm

theorem cutDrop_fst_subset {sep c : Char} {l : Str} (h : c ∈ (cutDrop sep l).1) : c ∈ l := by
  induction l with
  | nil => simp [cutDrop] at h
  | cons d ds ih =>
    by_cases hc : (d == sep) = true
    · simp [cutDrop, hc] at h
    · have hb : (d == sep) = false := by simpa using hc
      simp only [cutDrop, hb] at h
      rw [if_neg Bool.false_ne_true] at h
      rcases List.mem_cons.mp h with rfl | h
      · exact List.mem_cons_self _ _
      · exact List.mem_cons_of_mem _ (ih h)

theorem parseHost_ok {h h2 : Str} (hp : parseHost h = .ok h2) :
    h2 = h ∧ h.head? ≠ some '[' := by
  unfold parseHost at hp
  by_cases hb : (h.head? == some '[') = true
  · rw [if_pos hb] at hp
    exact absurd hp (by simp)
  · rw [if_neg hb] at hp
    have hne : h.head? ≠ some '[' := by simpa using hb
    cases hl : lastSplit ':' h with
    | none =>
      rw [hl] at hp
      simp only [Except.ok.injEq] at hp
      exact ⟨hp.symm, hne⟩
    | some p =>
      obtain ⟨pre, port⟩ := p
      rw [hl] at hp
      simp only [] at hp
      by_cases hdg : port.all (·.isDigit) = true
      · rw [if_pos hdg] at hp
        simp only [Except.ok.injEq] at hp
        exact ⟨hp.symm, hne⟩
      · rw [if_neg hdg] at hp
        exact absurd hp (by simp)

theorem parseAuthority_ok {auth host : Str} (hp : parseAuthority auth = .ok host) :
    (∀ c ∈ host, c ∈ auth) ∧ host.head? ≠ some '[' := by
  unfold parseAuthority at hp
  cases hl : lastSplit '@' auth with
  | none =>
    rw [hl] at hp
    obtain ⟨rfl, hb⟩ := parseHost_ok hp
    exact ⟨fun c hc => hc, hb⟩
  | some p =>
    obtain ⟨usr, rest⟩ := p
    rw [hl] at hp
    obtain ⟨rfl, hb⟩ := parseHost_ok hp
    obtain ⟨hauth, -⟩ := lastSplit_eq_some hl
    refine ⟨fun c hc => ?_, hb⟩
    rw [hauth]
    exact List.mem_append_right _ (List.mem_cons_of_mem _ hc)

theorem parseAuthority_no_colon {auth : Str} (h : ':' ∉ auth) (hat : '@' ∉ auth)
    (hbr : auth.head? ≠ some '[') : parseAuthority auth = .ok auth := by
  unfold parseAuthority
  rw [lastSplit_eq_none.mpr hat]
  unfold parseHost
  rw [if_neg (by simpa using hbr), lastSplit_eq_none.mpr h]

theorem stripPort_no_colon {h : Str} (hc : ':' ∉ h) : stripPort h = h := by
  unfold stripPort
  rw [lastSplit_eq_none.mpr hc]

theorem stripPort_sub {h : Str} : (∀ c ∈ stripPort h, c ∈ h)
    ∧ (stripPort h ≠ [] → (stripPort h).head? = h.head?) := by
  unfold stripPort
  cases hl : lastSplit ':' h with
  | none => exact ⟨fun c hc => hc, fun _ => rfl⟩
  | some p =>
    obtain ⟨pre, port⟩ := p
    obtain ⟨hdec, -⟩ := lastSplit_eq_some hl
    simp only []
    by_cases hdg : port.all (·.isDigit) = true
    · rw [if_pos hdg]
      subst hdec
      constructor
      · exact fun c hc => List.mem_append_left _ hc
      · intro hne
        cases pre with
        | nil => exact absurd rfl hne
        | cons a as => rfl
    · rw [if_neg hdg]
      exact ⟨fun c hc => hc, fun _ => rfl⟩

theorem parseURL_pieces {x : Str} {u : URLParts} (h : parseURL x = .ok u) :
    ('#' ∉ u.path ∧ '?' ∉ u.path)
    ∧ ('/' ∉ u.host ∧ '#' ∉ u.host ∧ '?' ∉ u.host ∧ u.host.head? ≠ some '[')
    ∧ (u.scheme = [] ∨ schemeOK u.scheme)
    ∧ (u.host ≠ [] → u.path = [] ∨ u.path.head? = some '/') := by
  simp only [parseURL] at h
  cases hg : getScheme (cutDrop '#' x).1 with
  | error e => rw [hg] at h; exact absurd h (by simp)
  | ok p =>
    obtain ⟨σ, sRest⟩ := p
    rw [hg] at h
    simp only [] at h
    have hq : '?' ∉ (cutDrop '?' sRest).1 := cutDrop_fst_not_mem '?' sRest
    have hmemN : ∀ c ∈ (cutDrop '?' sRest).1, c ∈ (cutDrop '#' x).1 := fun c hc =>
      getScheme_rest_mem hg c (cutDrop_fst_subset hc)
    have hh : '#' ∉ (cutDrop '?' sRest).1 := fun hc =>
      cutDrop_fst_not_mem '#' x (hmemN _ hc)
    have hσ := getScheme_sound hg
    by_cases h1 : (!σ.isEmpty && (cutDrop '?' sRest).1.head? != some '/') = true
    · rw [if_pos h1] at h
      simp only [Except.ok.injEq] at h
      subst h
      exact ⟨⟨by simp, by simp⟩, ⟨by simp, by simp, by simp, by simp⟩, hσ, by simp⟩
    · rw [if_neg h1] at h
      by_cases h2 : (σ.isEmpty && (cutDrop '?' sRest).1.head? != some '/'
          && ((cutDrop '?' sRest).1.takeWhile (fun c => c != '/')).contains ':') = true
      · rw [if_pos h2] at h
        exact absurd h (by simp)
      · rw [if_neg h2] at h
        by_cases h3 : ((cutDrop '?' sRest).1.take 2 == ['/', '/']) = true
        · rw [if_pos h3] at h
          cases ha : parseAuthority (splitKeep '/' ((cutDrop '?' sRest).1.drop 2)).1 with
          | error e => rw [ha] at h; exact absurd h (by simp)
          | ok host =>
            rw [ha] at h
            simp only [Except.ok.injEq] at h
            subst h
            obtain ⟨hsub, hbr⟩ := parseAuthority_ok ha
            have hostsub : ∀ c ∈ host, c ∈ (cutDrop '?' sRest).1 := fun c hc =>
              List.drop_subset _ _ (splitKeep_fst_subset (hsub c hc))
            have pathsub : ∀ c ∈ (splitKeep '/' ((cutDrop '?' sRest).1.drop 2)).2,
                c ∈ (cutDrop '?' sRest).1 := fun c hc =>
              List.drop_subset _ _ (splitKeep_snd_subset hc)
            refine ⟨⟨fun hc => hh (pathsub _ hc), fun hc => hq (pathsub _ hc)⟩,
              ⟨fun hc => splitKeep_fst_not_mem _ _ (hsub _ hc),
                fun hc => hh (hostsub _ hc), fun hc => hq (hostsub _ hc), hbr⟩, hσ, ?_⟩
            intro _
            exact splitKeep_snd_head '/' _
        · rw [if_neg h3] at h
          simp only [Except.ok.injEq] at h
          subst h
          exact ⟨⟨hh, hq⟩, ⟨by simp, by simp, by simp, by simp⟩, hσ, by simp⟩

/-- Re-parsing a canonical string `σ://A P` recovers its components, when
the scheme is wellformed, the authority `A` is free of `/ # ? @ :` and
does not start with `[`, and the path `P` is free of `# ?` and starts
with `/` when nonempty. -/
theorem parseURL_build {σ A P : Str}
    (hσ : schemeOK σ)
    (hAh : '#' ∉ A) (hAq : '?' ∉ A) (hPh : '#' ∉ P) (hPq : '?' ∉ P)
    (hsl : '/' ∉ A) (hat : '@' ∉ A) (hcol : ':' ∉ A)
    (hbr : A.head? ≠ some '[')
    (hP : P = [] ∨ P.head? = some '/') :
    parseURL (σ ++ ':' :: '/' :: '/' :: (A ++ P)) = .ok ⟨σ, A, P⟩ := by
  have hschars := hσ.2.1
  have hhash : '#' ∉ σ ++ ':' :: '/' :: '/' :: (A ++ P) := by
    intro hm
    rcases List.mem_append.mp hm with hm | hm
    · exact (isSchemeChar_ne (hschars _ hm)).2.2.2.1 rfl
    · rcases List.mem_cons.mp hm with hm | hm
      · exact absurd hm (by decide)
      rcases List.mem_cons.mp hm with hm | hm
      · exact absurd hm (by decide)
      rcases List.mem_cons.mp hm with hm | hm
      · exact absurd hm (by decide)
      rcases List.mem_append.mp hm with hm | hm
      · exact hAh hm
      · exact hPh hm
  have hquery : '?' ∉ '/' :: '/' :: (A ++ P) := by
    intro hm
    rcases List.mem_cons.mp hm with hm | hm
    · exact absurd hm (by decide)
    rcases List.mem_cons.mp hm with hm | hm
    · exact absurd hm (by decide)
    rcases List.mem_append.mp hm with hm | hm
    · exact hAq hm
    · exact hPq hm
  simp only [parseURL]
  rw [cutDrop_not_mem hhash]
  simp only []
  rw [getScheme_build _ hσ]
  simp only []
  rw [cutDrop_not_mem hquery]
  simp only []
  have hc1 : (!σ.isEmpty && ('/' :: '/' :: (A ++ P)).head? != some '/') = false := by
    simp
  rw [hc1, if_neg Bool.false_ne_true]
  have hc2 : (σ.isEmpty && ('/' :: '/' :: (A ++ P)).head? != some '/'
      && (('/' :: '/' :: (A ++ P)).takeWhile (fun c => c != '/')).contains ':') = false := by
    simp
  rw [hc2, if_neg Bool.false_ne_true]
  have hc3 : (('/' :: '/' :: (A ++ P)).take 2 == ['/', '/']) = true := by
    simp [List.take_succ_cons]
  rw [if_pos hc3]
  have hdrop : ('/' :: '/' :: (A ++ P)).drop 2 = A ++ P := rfl
  rw [hdrop]
  have hsk : splitKeep '/' (A ++ P) = (A, P) := by
    rcases hP with rfl | hPhead
    · rw [List.append_nil]
      exact splitKeep_not_mem hsl
    · cases P with
      | nil => simp at hPhead
      | cons p0 ps =>
        simp only [List.head?_cons, Option.some_inj] at hPhead
        subst hPhead
        exact splitKeep_append_sep ps hsl
  rw [hsk]
  simp only []
  rw [parseAuthority_no_colon hcol hat hbr]

theorem normalizeURL_ok_elim {x s : Str} (hn : normalizeURL x = .ok s) :
    x ≠ [] ∧ ∃ u, parseURL x = .ok u
      ∧ 2 ≤ (goSplit '.' (canonHost u)).length ∧ s = canonicalOf u := by
  simp only [normalizeURL] at hn
  by_cases he : x.isEmpty = true
  · rw [if_pos he] at hn
    exact absurd hn (by simp)
  · rw [if_neg he] at hn
    refine ⟨by simpa [List.isEmpty_iff] using he, ?_⟩
    cases hp : parseURL x with
    | error e => rw [hp] at hn; exact absurd hn (by simp)
    | ok u =>
      rw [hp] at hn
      simp only [] at hn
      by_cases hd : (goSplit '.' (canonHost u)).length < 2
      · rw [if_pos hd] at hn
        exact absurd hn (by simp)
      · rw [if_neg hd] at hn
        simp only [Except.ok.injEq] at hn
        exact ⟨u, rfl, by omega, hn.symm⟩

theorem normalizeURL_build {x : Str} {u : URLParts} (hx : x ≠ []) (hp : parseURL x = .ok u)
    (hd : 2 ≤ (goSplit '.' (canonHost u)).length) :
    normalizeURL x = .ok (canonicalOf u) := by
  simp only [normalizeURL]
  rw [if_neg (by simpa [List.isEmpty_iff] using hx), hp]
  simp only []
  rw [if_neg (by omega)]

theorem canonHost_no_slash {x : Str} {u : URLParts} (hp : parseURL x = .ok u) :
    '/' ∉ canonHost u ∧ '#' ∉ canonHost u ∧ '?' ∉ canonHost u := by
  obtain ⟨⟨hph, hpq⟩, ⟨hhs, hhh, hhq, -⟩, -, -⟩ := parseURL_pieces hp
  simp only [canonHost]
  by_cases he : (stripPort u.host).isEmpty = true
  · rw [if_pos he]
    refine ⟨?_, ?_, ?_⟩ <;> intro hm
    · have hpred := (List.mem_filter.mp hm).2
      simp at hpred
    · exact hph (List.mem_filter.mp hm).1
    · exact hpq (List.mem_filter.mp hm).1
  · rw [if_neg he]
    exact ⟨fun hm => hhs (stripPort_sub.1 _ hm), fun hm => hhh (stripPort_sub.1 _ hm),
      fun hm => hhq (stripPort_sub.1 _ hm)⟩

theorem splitKeep_cons_sep (sep : Char) (xs : Str) :
    splitKeep sep (sep :: xs) = ([], sep :: xs) := by
  simp [splitKeep]

theorem httpSchemeOK : schemeOK "http".toList := by
  refine ⟨by decide, by decide, by decide, ?_⟩
  intro c hc
  have hch : c = 'h' := by
    have : some 'h' = some c := hc
    simpa using this.symm
  subst hch
  decide

theorem canonHost_mk {σ A P : Str} (hcol : ':' ∉ A) (hAne : A ≠ []) :
    canonHost ⟨σ, A, P⟩ = A := by
  simp only [canonHost, stripPort_no_colon hcol]
  rw [if_neg (by simpa [List.isEmpty_iff] using hAne)]

theorem canonicalOf_eq {u : URLParts} (hsl : '/' ∉ canonHost u) :
    canonicalOf u = (if u.scheme.isEmpty then "http".toList else u.scheme)
      ++ ':' :: '/' :: '/' :: (canonHost u
        ++ (if 1 < u.path.count '/' then u.path else [])) := by
  have hgc : goContains (canonHost u) "://".toList = false := by
    cases hgc : goContains (canonHost u) "://".toList with
    | false => rfl
    | true => exact absurd (goContains_mem hgc '/' (by decide)) hsl
  simp only [canonicalOf, hgc, Bool.not_false, if_pos]
  by_cases hcnt : 1 < u.path.count '/'
  · rw [if_pos hcnt, if_pos hcnt]
    simp
  · rw [if_neg hcnt, if_neg hcnt]
    simp

/--
Amended C5.  For every input that parses and whose extracted host/path
component (`canonHost`) has at least two dot-separated labels, contains
neither `@` (userinfo) nor `:` (port), and does not start with `[`,
`normalizeURL` is idempotent.  (Without the restriction on `@`, `:` and
`[` the claim as stated fails; see the counterexample recorded for this
claim.)
-/
theorem normalizeURL_idem {x s : Str} {u : URLParts}
    (hp : parseURL x = .ok u)
    (hn : normalizeURL x = .ok s)
    (hat : '@' ∉ canonHost u) (hcol : ':' ∉ canonHost u)
    (hbr : (canonHost u).head? ≠ some '[') :
    normalizeURL s = .ok s := by
  obtain ⟨hx, u', hp', hd', hs⟩ := normalizeURL_ok_elim hn
  rw [hp] at hp'
  injection hp' with hp'
  subst hp'
  subst hs
  obtain ⟨hsl, hch, hcq⟩ := canonHost_no_slash hp
  have hdot : '.' ∈ canonHost u := goSplit_two_iff.mp hd'
  have hne : canonHost u ≠ [] := List.ne_nil_of_mem hdot
  obtain ⟨⟨hph, hpq⟩, ⟨hhs, hhh, hhq, hhb⟩, hsw, hpathshape⟩ := parseURL_pieces hp
  -- the appended path and its split at the first slash
  set p := if 1 < u.path.count '/' then u.path else [] with hpdef
  have hpsub : ∀ c ∈ p, c ∈ u.path := by
    intro c hc
    rw [hpdef] at hc
    by_cases hcnt : 1 < u.path.count '/'
    · rw [if_pos hcnt] at hc; exact hc
    · rw [if_neg hcnt] at hc; simp at hc
  have hp1h : ∀ c ∈ (splitKeep '/' p).1, c ∈ canonHost u := by
    intro c hc
    have hcp : c ∈ p := splitKeep_fst_subset hc
    have hcslash : c ≠ '/' := by
      rintro rfl
      exact splitKeep_fst_not_mem '/' p hc
    by_cases hhost : (stripPort u.host).isEmpty = true
    · -- host absent: `canonHost` is the slash-stripped path, which
      -- contains every non-slash character of `u.path`
      simp only [canonHost, if_pos hhost]
      exact List.mem_filter.mpr ⟨hpsub c hcp, by simpa using hcslash⟩
    · -- host present: the path starts with `/`, so the split's first
      -- component is empty
      exfalso
      have huh : u.host ≠ [] := by
        rintro hu
        rw [hu] at hhost
        simp [stripPort, lastSplit] at hhost
      rcases hpathshape huh with hup | hup
      · rw [hpdef] at hcp
        by_cases hcnt : 1 < u.path.count '/'
        · rw [if_pos hcnt, hup] at hcp; simp at hcp
        · rw [if_neg hcnt] at hcp; simp at hcp
      · have hpslash : p = [] ∨ p.head? = some '/' := by
          rw [hpdef]
          by_cases hcnt : 1 < u.path.count '/'
          · rw [if_pos hcnt]; exact Or.inr hup
          · rw [if_neg hcnt]; exact Or.inl rfl
        rcases hpslash with hpe | hphead
        · rw [hpe] at hc; simp [splitKeep] at hc
        · obtain ⟨ps, hpe2⟩ : ∃ ps, p = '/' :: ps := by
            cases hp0 : p with
            | nil => rw [hp0] at hphead; simp at hphead
            | cons a as =>
              rw [hp0] at hphead
              simp only [List.head?_cons, Option.some_inj] at hphead
              exact ⟨as, by rw [hphead]⟩
          rw [hpe2, splitKeep_cons_sep] at hc
          simp at hc
  -- the authority of the canonical string
  set A := canonHost u ++ (splitKeep '/' p).1 with hAdef
  have hAsl : '/' ∉ A := by
    intro hm
    rcases List.mem_append.mp hm with hm | hm
    · exact hsl hm
    · exact splitKeep_fst_not_mem '/' p hm
  have hAat : '@' ∉ A := by
    intro hm
    rcases List.mem_append.mp hm with hm | hm
    · exact hat hm
    · exact hat (hp1h _ hm)
  have hAcol : ':' ∉ A := by
    intro hm
    rcases List.mem_append.mp hm with hm | hm
    · exact hcol hm
    · exact hcol (hp1h _ hm)
  have hAh : '#' ∉ A := by
    intro hm
    rcases List.mem_append.mp hm with hm | hm
    · exact hch hm
    · exact hph (hpsub _ (splitKeep_fst_subset hm))
  have hAq : '?' ∉ A := by
    intro hm
    rcases List.mem_append.mp hm with hm | hm
    · exact hcq hm
    · exact hpq (hpsub _ (splitKeep_fst_subset hm))
  have hAne : A ≠ [] := by
    rw [hAdef]
    intro hnil
    exact hne (List.append_eq_nil.mp hnil).1
  have hAbr : A.head? ≠ some '[' := by
    rw [hAdef]
    cases hh : canonHost u with
    | nil => exact absurd hh hne
    | cons a as =>
      rw [hh] at hbr
      simpa using hbr
  have hPh : '#' ∉ (splitKeep '/' p).2 := fun hm => hph (hpsub _ (splitKeep_snd_subset hm))
  have hPq : '?' ∉ (splitKeep '/' p).2 := fun hm => hpq (hpsub _ (splitKeep_snd_subset hm))
  -- the scheme of the canonical string
  set σ2 := if u.scheme.isEmpty then "http".toList else u.scheme with hσdef
  have hσ2 : schemeOK σ2 := by
    rw [hσdef]
    by_cases hse : u.scheme.isEmpty = true
    · rw [if_pos hse]; exact httpSchemeOK
    · rw [if_neg hse]
      rcases hsw with hnil | hok
      · rw [hnil] at hse; simp at hse
      · exact hok
  -- the canonical output, reassembled around the authority split
  have hshape : canonicalOf u = σ2 ++ ':' :: '/' :: '/' :: (A ++ (splitKeep '/' p).2) := by
    rw [canonicalOf_eq hsl]
    rw [hAdef, ← hσdef, ← hpdef]
    rw [List.append_assoc, splitKeep_fst_append_snd]
  -- re-parse the canonical output
  have hparse2 : parseURL (canonicalOf u) = .ok ⟨σ2, A, (splitKeep '/' p).2⟩ := by
    rw [hshape]
    exact parseURL_build hσ2 hAh hAq hPh hPq hAsl hAat hAcol hAbr (splitKeep_snd_head '/' p)
  have hcanon2 : canonHost ⟨σ2, A, (splitKeep '/' p).2⟩ = A := canonHost_mk hAcol hAne
  have hnemp : canonicalOf u ≠ [] := by
    rw [hshape]
    cases hσc : σ2 with
    | nil => exact absurd hσc hσ2.1
    | cons a as => simp
  have hd2 : 2 ≤ (goSplit '.' (canonHost ⟨σ2, A, (splitKeep '/' p).2⟩)).length := by
    rw [hcanon2]
    exact goSplit_two_iff.mpr (List.mem_append_left _ hdot)
  rw [normalizeURL_build hnemp hparse2 hd2]
  congr 1
  have hsl2 : '/' ∉ canonHost ⟨σ2, A, (splitKeep '/' p).2⟩ := by
    rw [hcanon2]; exact hAsl
  rw [canonicalOf_eq hsl2, hcanon2]
  have hσe : σ2.isEmpty = false := by simpa [List.isEmpty_iff] using hσ2.1
  have hcnt2 : (if 1 < ((⟨σ2, A, (splitKeep '/' p).2⟩ : URLParts).path).count '/'
      then (⟨σ2, A, (splitKeep '/' p).2⟩ : URLParts).path else []) = (splitKeep '/' p).2 := by
    show (if 1 < ((splitKeep '/' p).2).count '/' then (splitKeep '/' p).2 else [])
      = (splitKeep '/' p).2
    by_cases hcnt : 1 < u.path.count '/'
    · have hcount : ((splitKeep '/' p).2).count '/' = p.count '/' := by
        conv_rhs => rw [← splitKeep_fst_append_snd '/' p]
        rw [List.count_append, List.count_eq_zero.mpr (splitKeep_fst_not_mem '/' p)]
        omega
      have hpe : p = u.path := by rw [hpdef, if_pos hcnt]
      rw [if_pos (by rw [hcount, hpe]; exact hcnt)]
    · have hpe : p = [] := by rw [hpdef, if_neg hcnt]
      rw [hpe]
      simp [splitKeep]
  rw [hcnt2]
  have hσmk : ((⟨σ2, A, (splitKeep '/' p).2⟩ : URLParts).scheme).isEmpty = false := hσe
  rw [if_neg (by rw [hσmk]; exact Bool.false_ne_true)]
  exact hshape.symm

/-! ### Query and fragment dropping (claim C10) -/

theorem getSchemeAux_none_rest {s0 l : Str} : ∀ {acc r : Str},
    getSchemeAux s0 acc l = .ok ([], r) → r = s0 := by
  induction l with
  | nil =>
    intro acc r h
    simp only [getSchemeAux, Except.ok.injEq, Prod.mk.injEq] at h
    exact h.2.symm
  | cons c cs ih =>
    intro acc r h
    simp only [getSchemeAux] at h
    by_cases hca : c.isAlpha = true
    · rw [if_pos hca] at h
      exact ih h
    · rw [if_neg hca] at h
      by_cases hd : (c.isDigit || c == '+' || c == '-' || c == '.') = true
      · rw [if_pos hd] at h
        by_cases hae : acc.isEmpty = true
        · rw [if_pos hae] at h
          simp only [Except.ok.injEq, Prod.mk.injEq] at h
          exact h.2.symm
        · rw [if_neg hae] at h
          exact ih h
      · rw [if_neg hd] at h
        by_cases hcl : (c == ':') = true
        · rw [if_pos hcl] at h
          by_cases hae : acc.isEmpty = true
          · rw [if_pos hae] at h
            exact absurd h (by simp)
          · rw [if_neg hae] at h
            simp only [Except.ok.injEq, Prod.mk.injEq] at h
            rw [List.map_eq_nil_iff] at h
            rw [h.1] at hae
            simp at hae
        · rw [if_neg hcl] at h
          simp only [Except.ok.injEq, Prod.mk.injEq] at h
          exact h.2.symm

theorem getSchemeAux_append_query {junk l : Str} : ∀ {s0 s0' acc : Str}, '?' ∉ l →
    getSchemeAux s0' acc (l ++ '?' :: junk)
      = match getSchemeAux s0 acc l with
        | .error e => .error e
        | .ok ([], _) => .ok ([], s0')
        | .ok (σ, r) => .ok (σ, r ++ '?' :: junk) := by
  induction l with
  | nil =>
    intro s0 s0' acc _
    simp only [List.nil_append, getSchemeAux]
    have c1 : ('?' : Char).isAlpha = false := by decide
    have c2 : (('?' : Char).isDigit || '?' == '+' || '?' == '-' || '?' == '.') = false := by
      decide
    have c3 : ('?' == ':') = false := by decide
    rw [c1, if_neg Bool.false_ne_true, c2, if_neg Bool.false_ne_true, c3,
      if_neg Bool.false_ne_true]
  | cons c cs ih =>
    intro s0 s0' acc h
    have hqc : '?' ∉ cs := fun hm => h (List.mem_cons_of_mem _ hm)
    rw [List.cons_append]
    simp only [getSchemeAux]
    by_cases hca : c.isAlpha = true
    · rw [if_pos hca, if_pos hca]
      exact ih hqc
    · rw [if_neg hca, if_neg hca]
      by_cases hd : (c.isDigit || c == '+' || c == '-' || c == '.') = true
      · rw [if_pos hd, if_pos hd]
        by_cases hae : acc.isEmpty = true
        · rw [if_pos hae, if_pos hae]
        · rw [if_neg hae, if_neg hae]
          exact ih hqc
      · rw [if_neg hd, if_neg hd]
        by_cases hcl : (c == ':') = true
        · rw [if_pos hcl, if_pos hcl]
          by_cases hae : acc.isEmpty = true
          · rw [if_pos hae, if_pos hae]
          · rw [if_neg hae, if_neg hae]
            cases hacc : acc with
            | nil => rw [hacc] at hae; simp at hae
            | cons a as => rfl
        · rw [if_neg hcl, if_neg hcl]

theorem parseURL_drops_query {a : Str} (junk : Str) (hq : '?' ∉ a) (hh : '#' ∉ a)
    (hhj : '#' ∉ junk) :
    parseURL (a ++ '?' :: junk) = parseURL a := by
  have hfrag : '#' ∉ a ++ '?' :: junk := by
    intro hm
    rcases List.mem_append.mp hm with hm | hm
    · exact hh hm
    · rcases List.mem_cons.mp hm with hm | hm
      · exact absurd hm (by decide)
      · exact hhj hm
  simp only [parseURL, cutDrop_not_mem hfrag, cutDrop_not_mem hh, getScheme]
  rw [@getSchemeAux_append_query junk a a (a ++ '?' :: junk) [] hq]
  cases hg : getSchemeAux a [] a with
  | error e => rfl
  | ok p =>
    obtain ⟨σ, r⟩ := p
    cases σ with
    | nil =>
      have hr : r = a := getSchemeAux_none_rest hg
      subst hr
      simp only [cutDrop_append junk hq, cutDrop_not_mem hq]
    | cons s1 ss =>
      have hrmem : '?' ∉ r := by
        intro hm
        exact hq ((getSchemeAux_rest_mem hg '?' hm).elim id id)
      simp only [cutDrop_append junk hrmem, cutDrop_not_mem hrmem]

theorem normalizeURL_drops_fragment {a : Str} (junk : Str) (ha : a ≠ []) (h2 : '#' ∉ a) :
    normalizeURL (a ++ '#' :: junk) = normalizeURL a := by
  have hpar : parseURL (a ++ '#' :: junk) = parseURL a := by
    simp only [parseURL, cutDrop_append junk h2, cutDrop_not_mem h2]
  have h1 : (a ++ '#' :: junk).isEmpty = false := by
    cases a <;> simp
  have h3 : a.isEmpty = false := by simpa [List.isEmpty_iff] using ha
  simp only [normalizeURL, hpar, h1, h3]

theorem normalizeURL_drops_query {a : Str} (junk : Str) (ha : a ≠ []) (hh : '#' ∉ a)
    (hq : '?' ∉ a) (hhj : '#' ∉ junk) :
    normalizeURL (a ++ '?' :: junk) = normalizeURL a := by
  have h1 : (a ++ '?' :: junk).isEmpty = false := by
    cases a <;> simp
  have h3 : a.isEmpty = false := by simpa [List.isEmpty_iff] using ha
  simp only [normalizeURL, parseURL_drops_query junk hq hh hhj, h1, h3]

theorem canonicalOf_pure {x s : Str} (hn : normalizeURL x = .ok s) : '?' ∉ s ∧ '#' ∉ s := by
  obtain ⟨-, u, hp, -, hs⟩ := normalizeURL_ok_elim hn
  obtain ⟨hsl, hch, hcq⟩ := canonHost_no_slash hp
  obtain ⟨⟨hph, hpq⟩, -, hsw, -⟩ := parseURL_pieces hp
  subst hs
  rw [canonicalOf_eq hsl]
  have hσ : ∀ c ∈ (if u.scheme.isEmpty then "http".toList else u.scheme),
      isSchemeChar c = true := by
    by_cases hse : u.scheme.isEmpty = true
    · rw [if_pos hse]; decide
    · rw [if_neg hse]
      rcases hsw with hnil | hok
      · rw [hnil] at hse; simp at hse
      · exact hok.2.1
  have hpsub : ∀ c ∈ (if 1 < u.path.count '/' then u.path else []), c ∈ u.path := by
    by_cases hcnt : 1 < u.path.count '/'
    · rw [if_pos hcnt]; exact fun c hc => hc
    · rw [if_neg hcnt]; simp
  constructor <;> intro hm
  · rcases List.mem_append.mp hm with hm | hm
    · exact (isSchemeChar_ne (hσ _ hm)).2.2.1 rfl
    · rcases List.mem_cons.mp hm with hm | hm
      · exact absurd hm (by decide)
      rcases List.mem_cons.mp hm with hm | hm
      · exact absurd hm (by decide)
      rcases List.mem_cons.mp hm with hm | hm
      · exact absurd hm (by decide)
      rcases List.mem_append.mp hm with hm | hm
      · exact hcq hm
      · exact hpq (hpsub _ hm)
  · rcases List.mem_append.mp hm with hm | hm
    · exact (isSchemeChar_ne (hσ _ hm)).2.2.2.1 rfl
    · rcases List.mem_cons.mp hm with hm | hm
      · exact absurd hm (by decide)
      rcases List.mem_cons.mp hm with hm | hm
      · exact absurd hm (by decide)
      rcases List.mem_cons.mp hm with hm | hm
      · exact absurd hm (by decide)
      rcases List.mem_append.mp hm with hm | hm
      · exact hch hm
      · exact hph (hpsub _ hm)

/-! ### Lemmas about the email-filter fold (claim C9) -/

theorem emailFilterStep_stay {e : Str} {c : List Str}
    (h : inSlice e c = true ∨ ¬1 < e.length) (f : Str) : emailFilterStep e c f = c := by
  unfold emailFilterStep
  rcases h with h | h
  · rw [if_neg]
    simp [h]
  · rw [if_neg]
    simp only [Bool.and_eq_true, decide_eq_true_eq]
    rintro ⟨-, hlen⟩
    exact h hlen

theorem foldl_filterStep_stay {e : Str} {c : List Str}
    (h : inSlice e c = true ∨ ¬1 < e.length) (fs : List Str) :
    fs.foldl (emailFilterStep e) c = c := by
  induction fs with
  | nil => rfl
  | cons f fs ih =>
    simp only [List.foldl_cons, emailFilterStep_stay h f]
    exact ih

theorem foldl_filterStep_eq {e : Str} (h1 : 1 < e.length) :
    ∀ {clean : List Str}, inSlice e clean = false → ∀ (fs : List Str),
    fs.foldl (emailFilterStep e) clean
      = if fs.any (fun f => !goContains e f) then clean ++ [e] else clean := by
  intro clean h2 fs
  induction fs with
  | nil => rfl
  | cons f fs ih =>
    simp only [List.foldl_cons, List.any_cons]
    by_cases hg : goContains e f = true
    · have hstep : emailFilterStep e clean f = clean := by
        unfold emailFilterStep
        rw [if_neg]
        simp [hg]
      rw [hstep, ih]
      simp [hg]
    · have hgf : goContains e f = false := by simpa using hg
      have hstep : emailFilterStep e clean f = clean ++ [e] := by
        unfold emailFilterStep
        rw [if_pos]
        simp [hgf, h2, h1]
      have hin : inSlice e (clean ++ [e]) = true := by
        rw [inSlice_iff]
        simp
      rw [hstep, foldl_filterStep_stay (Or.inl hin)]
      simp [hgf]

theorem emailStep_eq (filters : List Str) (clean : List Str) (e : Str) :
    emailStep filters clean e =
      if 1 < e.length ∧ inSlice e clean = false
          ∧ (filters.isEmpty = true ∨ filters.any (fun f => !goContains e f) = true)
      then clean ++ [e] else clean := by
  unfold emailStep
  by_cases hfl : filters.length > 0
  · rw [if_pos hfl]
    have hfe : filters.isEmpty = false := by
      cases filters
      · simp at hfl
      · simp
    by_cases h1 : 1 < e.length
    · by_cases h2 : inSlice e clean = false
      · rw [foldl_filterStep_eq h1 h2]
        by_cases h3 : filters.any (fun f => !goContains e f) = true
        · rw [if_pos h3, if_pos ⟨h1, h2, Or.inr h3⟩]
        · rw [if_neg h3, if_neg]
          rintro ⟨-, -, hor⟩
          rcases hor with hor | hor
          · rw [hfe] at hor; exact Bool.false_ne_true hor
          · exact h3 hor
      · have h2t : inSlice e clean = true := by
          cases hi : inSlice e clean
          · exact absurd hi h2
          · rfl
        rw [foldl_filterStep_stay (Or.inl h2t), if_neg]
        rintro ⟨-, hfalse, -⟩
        rw [h2t] at hfalse
        exact absurd hfalse (by simp)
    · rw [foldl_filterStep_stay (Or.inr h1), if_neg]
      rintro ⟨hh, -⟩
      exact h1 hh
  · rw [if_neg hfl]
    have hfe : filters = [] := by
      cases filters
      · rfl
      · simp at hfl
    subst hfe
    by_cases h1 : 1 < e.length
    · by_cases h2 : inSlice e clean = false
      · rw [if_pos (by simp [h1, h2]), if_pos ⟨h1, h2, Or.inl rfl⟩]
      · have h2t : inSlice e clean = true := by
          cases hi : inSlice e clean
          · exact absurd hi h2
          · rfl
        rw [if_neg (by simp [h2t]), if_neg]
        rintro ⟨-, hfalse, -⟩
        rw [h2t] at hfalse
        exact absurd hfalse (by simp)
    · rw [if_neg (by simp [h1]), if_neg]
      rintro ⟨hh, -⟩
      exact h1 hh

theorem emailStep_cases (filters : List Str) (clean : List Str) (e : Str) :
    emailStep filters clean e = clean ∨ emailStep filters clean e = clean ++ [e] := by
  rw [emailStep_eq]
  split
  · exact Or.inr rfl
  · exact Or.inl rfl

theorem emailStep_superset {filters : List Str} {clean : List Str} {e x : Str}
    (h : x ∈ clean) : x ∈ emailStep filters clean e := by
  rcases emailStep_cases filters clean e with hc | hc <;> rw [hc]
  · exact h
  · exact List.mem_append_left _ h

theorem foldl_emailStep_mem {filters : List Str} (hf : filters ≠ []) {x : Str} :
    ∀ (emails clean : List Str),
      x ∈ emails.foldl (emailStep filters) clean ↔
        x ∈ clean ∨ (x ∈ emails ∧ 1 < x.length ∧ ∃ f ∈ filters, goContains x f = false) := by
  have hfe : filters.isEmpty = false := by
    cases filters
    · exact absurd rfl hf
    · simp
  intro emails
  induction emails with
  | nil => intro clean; simp
  | cons e es ih =>
    intro clean
    simp only [List.foldl_cons]
    rw [ih (emailStep filters clean e)]
    constructor
    · rintro (hx | hx)
      · rw [emailStep_eq] at hx
        by_cases hcond : 1 < e.length ∧ inSlice e clean = false
            ∧ (filters.isEmpty = true ∨ filters.any (fun f => !goContains e f) = true)
        · rw [if_pos hcond] at hx
          rcases List.mem_append.mp hx with hx | hx
          · exact Or.inl hx
          · rcases List.mem_singleton.mp hx with rfl
            refine Or.inr ⟨List.mem_cons_self _ _, hcond.1, ?_⟩
            rcases hcond.2.2 with habs | hany
            · rw [hfe] at habs; exact absurd habs (by simp)
            · rcases List.any_eq_true.mp hany with ⟨f, hfmem, hcf⟩
              exact ⟨f, hfmem, by simpa using hcf⟩
        · rw [if_neg hcond] at hx
          exact Or.inl hx
      · exact Or.inr ⟨List.mem_cons_of_mem _ hx.1, hx.2⟩
    · rintro (hx | ⟨hmem, hlen, f, hfmem, hcf⟩)
      · exact Or.inl (emailStep_superset hx)
      · rcases List.mem_cons.mp hmem with rfl | hmem
        · by_cases hxc : x ∈ clean
          · exact Or.inl (emailStep_superset hxc)
          · left
            have hins : inSlice x clean = false := by
              cases hi : inSlice x clean
              · rfl
              · exact absurd (inSlice_iff.mp hi) hxc
            rw [emailStep_eq, if_pos ⟨hlen, hins,
              Or.inr (List.any_eq_true.mpr ⟨f, hfmem, by simp [hcf]⟩)⟩]
            exact List.mem_append_right _ (List.mem_singleton_self _)
        · exact Or.inr ⟨hmem, hlen, f, hfmem, hcf⟩

theorem buildClean_mem {filters : List Str} (hf : filters ≠ []) {x : Str} (emails : List Str) :
    x ∈ buildClean filters emails ↔
      x ∈ emails ∧ 1 < x.length ∧ ∃ f ∈ filters, goContains x f = false := by
  unfold buildClean
  by_cases hel : emails.length > 0
  · rw [if_pos hel, foldl_emailStep_mem hf]
    simp
  · rw [if_neg hel]
    have hemp : emails = [] := by
      cases emails
      · rfl
      · simp at hel
    subst hemp
    simp

theorem emailStep_sublist (filters : List Str) (clean : List Str) (e : Str) :
    (emailStep filters clean e).Sublist (clean ++ [e]) := by
  rcases emailStep_cases filters clean e with hc | hc
  · rw [hc]
    exact List.sublist_append_left clean [e]
  · rw [hc]

theorem foldl_emailStep_sublist (filters : List Str) :
    ∀ (emails clean : List Str),
      (emails.foldl (emailStep filters) clean).Sublist (clean ++ emails) := by
  intro emails
  induction emails with
  | nil => intro clean; simp
  | cons e es ih =>
    intro clean
    simp only [List.foldl_cons]
    have h1 := ih (emailStep filters clean e)
    have h2 : (emailStep filters clean e ++ es).Sublist ((clean ++ [e]) ++ es) :=
      (emailStep_sublist filters clean e).append_right es
    have h3 := h1.trans h2
    simpa [List.append_assoc] using h3

theorem buildClean_sublist (filters emails : List Str) :
    (buildClean filters emails).Sublist emails := by
  unfold buildClean
  by_cases hel : emails.length > 0
  · rw [if_pos hel]
    simpa using foldl_emailStep_sublist filters emails []
  · rw [if_neg hel]
    exact List.nil_sublist _

theorem emailStep_nodup {filters : List Str} {clean : List Str} {e : Str}
    (h : clean.Nodup) : (emailStep filters clean e).Nodup := by
  rw [emailStep_eq]
  split
  · rename_i hcond
    have he : e ∉ clean := fun hm => by
      have hi := inSlice_iff.mpr hm
      rw [hcond.2.1] at hi
      exact absurd hi (by simp)
    simp [List.nodup_append, h, he]
  · exact h

theorem foldl_emailStep_nodup (filters : List Str) :
    ∀ (emails clean : List Str), clean.Nodup → (emails.foldl (emailStep filters) clean).Nodup := by
  intro emails
  induction emails with
  | nil => intro clean h; exact h
  | cons e es ih =>
    intro clean h
    simp only [List.foldl_cons]
    exact ih _ (emailStep_nodup h)

theorem buildClean_nodup (filters emails : List Str) : (buildClean filters emails).Nodup := by
  unfold buildClean
  split
  · exact foldl_emailStep_nodup filters emails [] List.nodup_nil
  · exact List.nodup_nil

/-! ### Lemmas about the crawler and the scan loops -/

theorem eachAnchor_extend (b : Str) (lim : Int) (acc : List Str) (a : Str) :
    eachAnchor b lim acc a = acc ∨ eachAnchor b lim acc a = acc ++ [a] := by
  unfold eachAnchor
  split
  · exact Or.inr rfl
  · exact Or.inl rfl

theorem foldl_eachAnchor_extend (b : Str) (lim : Int) :
    ∀ (anchors acc : List Str), ∃ t, anchors.foldl (eachAnchor b lim) acc = acc ++ t := by
  intro anchors
  induction anchors with
  | nil => intro acc; exact ⟨[], by simp⟩
  | cons a as ih =>
    intro acc
    simp only [List.foldl_cons]
    obtain ⟨t, ht⟩ := ih (eachAnchor b lim acc a)
    rcases eachAnchor_extend b lim acc a with he | he
    · rw [he]
      rw [he] at ht
      exact ⟨t, ht⟩
    · rw [he]
      rw [he] at ht
      exact ⟨[a] ++ t, by rw [ht, List.append_assoc]⟩

theorem linksToCheck_head (b : Str) (lim : Int) (doc : Option (List Str)) :
    ∃ t, linksToCheck b lim doc = b :: t := by
  simp only [linksToCheck]
  by_cases hl : (lim == 0) = true
  · rw [if_pos hl]
    exact ⟨[], rfl⟩
  · rw [if_neg hl]
    cases doc with
    | none => exact ⟨[], rfl⟩
    | some anchors =>
      obtain ⟨t, ht⟩ := foldl_eachAnchor_extend b lim anchors [b]
      refine ⟨t, ?_⟩
      show List.foldl (eachAnchor b lim) [b] anchors = b :: t
      rw [ht]
      rfl

theorem fetchWithRetry_fail {env : ScanEnv} {u : Str}
    (h1 : env.fetch u = none)
    (h2 : goContains u "https:".toList = false)
    (h3 : env.fetch (replaceFirst u "http".toList "https".toList) = none) :
    fetchWithRetry env u = .error .transport := by
  simp only [fetchWithRetry, h1]
  rw [h2, if_neg Bool.false_ne_true, h3]

theorem fetchWithRetry_ok_fetch {env : ScanEnv} {u u2 body : Str}
    (h : fetchWithRetry env u = .ok (u2, body)) : env.fetch u2 = some body := by
  simp only [fetchWithRetry] at h
  cases hf : env.fetch u with
  | some b =>
    rw [hf] at h
    simp only [Except.ok.injEq, Prod.mk.injEq] at h
    rw [← h.1, hf, h.2]
  | none =>
    rw [hf] at h
    simp only [] at h
    by_cases hc : goContains u "https:".toList = true
    · rw [if_pos hc] at h
      exact absurd h (by simp)
    · rw [if_neg hc] at h
      cases hf2 : env.fetch (replaceFirst u "http".toList "https".toList) with
      | some b =>
        rw [hf2] at h
        simp only [Except.ok.injEq, Prod.mk.injEq] at h
        rw [← h.1, hf2, h.2]
      | none =>
        rw [hf2] at h
        exact absurd h (by simp)

theorem searchLoop_mem {env : ScanEnv} {kw spat cpat : Str} :
    ∀ {urls acc : List _} {r : Result},
      r ∈ (searchLoop env kw spat cpat urls acc).1 →
      r ∈ acc ∨ ∃ u2 body, env.fetch u2 = some body ∧
        r = ⟨.str kw, u2, env.rmatch spat body,
              .str (if env.rmatch spat body then newLineReplace (env.rfind cpat body) else [])⟩ := by
  intro urls
  induction urls with
  | nil =>
    intro acc r hr
    exact Or.inl hr
  | cons u us ih =>
    intro acc r hr
    simp only [searchLoop] at hr
    cases hf : fetchWithRetry env u with
    | error e =>
      rw [hf] at hr
      exact Or.inl hr
    | ok p =>
      obtain ⟨u2, body⟩ := p
      rw [hf] at hr
      simp only [] at hr
      rcases ih hr with hacc | hrest
      · rcases List.mem_append.mp hacc with hacc | hacc
        · exact Or.inl hacc
        · rcases List.mem_singleton.mp hacc with rfl
          exact Or.inr ⟨u2, body, fetchWithRetry_ok_fetch hf, rfl⟩
      · exact Or.inr hrest

theorem searchLoop_no_error {env : ScanEnv} {kw spat cpat : Str}
    (hfetch : ∀ u, (env.fetch u).isSome = true) :
    ∀ (urls acc : List _), (searchLoop env kw spat cpat urls acc).2 = none := by
  intro urls
  induction urls with
  | nil => intro acc; rfl
  | cons u us ih =>
    intro acc
    simp only [searchLoop]
    obtain ⟨body, hb⟩ := Option.isSome_iff_exists.mp (hfetch u)
    have hfr : fetchWithRetry env u = .ok (u, body) := by
      simp [fetchWithRetry, hb]
    rw [hfr]
    exact ih _

theorem emailLoop_mem {env : ScanEnv} {pat : Str} {filters : List Str} :
    ∀ {urls acc : List _} {r : Result},
      r ∈ (emailLoop env pat filters urls acc).1 →
      r ∈ acc ∨ ∃ u2 body, env.fetch u2 = some body ∧
        r = ⟨.str [], u2, !(env.submatch pat body).isEmpty,
              .list (buildClean filters (env.submatch pat body))⟩ := by
  intro urls
  induction urls with
  | nil =>
    intro acc r hr
    exact Or.inl hr
  | cons u us ih =>
    intro acc r hr
    simp only [emailLoop] at hr
    cases hf : fetchWithRetry env u with
    | error e =>
      rw [hf] at hr
      exact Or.inl hr
    | ok p =>
      obtain ⟨u2, body⟩ := p
      rw [hf] at hr
      simp only [] at hr
      rcases ih hr with hacc | hrest
      · rcases List.mem_append.mp hacc with hacc | hacc
        · exact Or.inl hacc
        · rcases List.mem_singleton.mp hacc with rfl
          exact Or.inr ⟨u2, body, fetchWithRetry_ok_fetch hf, rfl⟩
      · exact Or.inr hrest

/-- A completed run of the capacity-`n` gate never holds more than `n`
slots: every occupancy reachable from an occupancy `≤ n` stays `≤ n`
(and since this holds for every event list, it holds for every prefix of
a schedule). -/
theorem gateRun_le {n : Nat} : ∀ {es : List GateEvent} {occ occ2 : Nat},
    occ ≤ n → gateRun n es occ = some occ2 → occ2 ≤ n := by
  intro es
  induction es with
  | nil =>
    intro occ occ2 h1 h2
    simp only [gateRun, Option.some_inj] at h2
    rw [← h2]
    exact h1
  | cons e es ih =>
    intro occ occ2 h1 h2
    cases e with
    | acquire =>
      simp only [gateRun] at h2
      by_cases hlt : occ < n
      · rw [if_pos hlt] at h2
        exact ih hlt h2
      · rw [if_neg hlt] at h2
        exact absurd h2 (by simp)
    | release =>
      simp only [gateRun] at h2
      by_cases hpos : 0 < occ
      · rw [if_pos hpos] at h2
        exact ih (by omega) h2
      · rw [if_neg hpos] at h2
        exact absurd h2 (by simp)

theorem linksToCheck_none (b : Str) (lim : Int) : linksToCheck b lim none = [b] := by
  simp only [linksToCheck]
  by_cases hl : (lim == 0) = true
  · rw [if_pos hl]
  · rw [if_neg hl]

/-! ### Claim theorems -/

/-- C4: `normalizeURL` satisfies the four concrete cases:
`normalize("facebook.com/") = "http://facebook.com"`,
`normalize("https://facebook.com/") = "https://facebook.com"`,
`normalize("")` fails with the empty-URL error, and
`normalize("facebook")` fails with the domain-missing error. -/
theorem normalizeURL_concrete_cases :
    normalizeURL "facebook.com/".toList = .ok "http://facebook.com".toList
    ∧ normalizeURL "https://facebook.com/".toList = .ok "https://facebook.com".toList
    ∧ normalizeURL "".toList = .error .errURLEmpty
    ∧ normalizeURL "facebook".toList = .error .errDomainMissing :=
  ⟨by decide, by decide, by decide, by decide⟩

/-- C2 (failing input): with `limit = 1` and two same-site anchors,
`linksToCheck` returns all three URLs — the `return` inside the
`Each` callback exits only that callback invocation, never the
iteration, so the collected list exceeds the limit.  The claim's
limit-free parts do hold here: the base URL is first and the list is
duplicate-free. -/
theorem linksToCheck_ignores_limit :
    linksToCheck "http://a.com".toList 1
        (some ["http://a.com/x".toList, "http://a.com/y".toList])
      = ["http://a.com".toList, "http://a.com/x".toList, "http://a.com/y".toList]
    ∧ 1 < (linksToCheck "http://a.com".toList 1
        (some ["http://a.com/x".toList, "http://a.com/y".toList])).length :=
  ⟨by decide, by decide⟩

/-- C1 (counterexample): in an environment where every request fails —
so both the fetch of the base link and its https retry fail — the
part_002 `Search` appends NO result and returns the transport error, not
`ErrUnresolvedOrTimedOut`. -/
theorem search_double_fail_cex :
    Search ⟨0⟩ ⟨fun _ => none, none, fun _ _ => false, fun _ _ => [], fun _ _ => []⟩
        "a.b".toList "x".toList
      = ⟨[], some .transport, [.acquire, .release]⟩
    ∧ GoErr.transport ≠ GoErr.errUnresolvedOrTimedOut :=
  ⟨by decide, by decide⟩

/-- C1 (amended): when the fetch of a scan's first link and its https
retry both fail, the part_002 `Search` appends no `Result` and returns
the underlying transport error; the behavior the claim describes — one
`Found = false` result for the rewritten failing link and the
`ErrUnresolvedOrTimedOut` sentinel — is that of the earlier part_001
revision (`V1.Search`). -/
theorem search_double_fail_behavior (sc : Scanner) (env : ScanEnv) (URL kw nu : Str)
    (h1 : normalizeURL URL = .ok nu)
    (h2 : env.fetch nu = none)
    (h3 : goContains nu "https:".toList = false)
    (h4 : env.fetch (replaceFirst nu "http".toList "https".toList) = none) :
    (Search sc env URL kw).results = [] ∧ (Search sc env URL kw).err = some .transport
    ∧ (V1.Search sc env URL kw).results
        = [⟨.str kw, replaceFirst nu "http".toList "https".toList, false, .str []⟩]
    ∧ (V1.Search sc env URL kw).err = some .errUnresolvedOrTimedOut := by
  obtain ⟨t, ht⟩ := linksToCheck_head nu sc.depthLimit env.anchors
  have hfr := fetchWithRetry_fail h2 h3 h4
  have hS : Search sc env URL kw = ⟨[], some .transport, [.acquire, .release]⟩ := by
    simp only [Search, h1]
    rw [ht]
    simp only [searchLoop, hfr]
  have hV : V1.Search sc env URL kw
      = ⟨[⟨.str kw, replaceFirst nu "http".toList "https".toList, false, .str []⟩],
          some .errUnresolvedOrTimedOut, [.acquire, .release]⟩ := by
    simp only [V1.Search, h1]
    rw [ht]
    simp only [V1.searchLoop, h2, h3, Bool.not_false, if_true, h4, List.nil_append]
  rw [hS, hV]
  exact ⟨rfl, rfl, rfl, rfl⟩

/-- Witness for `search_double_fail_behavior` at a concrete environment
where every request fails. -/
theorem search_double_fail_behavior_w :
    (Search ⟨0⟩ ⟨fun _ => none, none, fun _ _ => false, fun _ _ => [], fun _ _ => []⟩
        "a.b".toList "x".toList).results = []
    ∧ (Search ⟨0⟩ ⟨fun _ => none, none, fun _ _ => false, fun _ _ => [], fun _ _ => []⟩
        "a.b".toList "x".toList).err = some .transport
    ∧ (V1.Search ⟨0⟩ ⟨fun _ => none, none, fun _ _ => false, fun _ _ => [], fun _ _ => []⟩
        "a.b".toList "x".toList).results
      = [⟨.str "x".toList,
            replaceFirst "http://a.b".toList "http".toList "https".toList, false, .str []⟩]
    ∧ (V1.Search ⟨0⟩ ⟨fun _ => none, none, fun _ _ => false, fun _ _ => [], fun _ _ => []⟩
        "a.b".toList "x".toList).err = some .errUnresolvedOrTimedOut :=
  search_double_fail_behavior ⟨0⟩
    ⟨fun _ => none, none, fun _ _ => false, fun _ _ => [], fun _ _ => []⟩
    "a.b".toList "x".toList "http://a.b".toList (by decide) rfl (by decide) rfl

/-- C3 (counterexample): for the keyword `a.b` — a literal carrying no
case-sensitivity directive but containing the regex metacharacter `.` —
`Search` builds the pattern `(?i)a.b` without any escaping, while the
spec's escape-and-wrap construction yields `(?i)a\.b`. -/
theorem search_pattern_unescaped_cex :
    goContains "a.b".toList "(?i)".toList = false
    ∧ buildSearchPattern "a.b".toList = "(?i)a.b".toList
    ∧ specSearchPattern "a.b".toList = "(?i)a\\.b".toList
    ∧ buildSearchPattern "a.b".toList ≠ specSearchPattern "a.b".toList :=
  ⟨by decide, by decide, by decide, by decide⟩

/-- C3 (amended): a keyword without `(?i)` is wrapped into the
case-insensitive pattern `"(?i)" + keyword` — so matching is
case-insensitive by default — but the keyword is NOT escaped: the built
pattern coincides with the spec's escaped pattern exactly when quoting
the keyword is a no-op (no regex metacharacters). -/
theorem search_pattern_wraps_without_escaping :
    (∀ kw : Str, goContains kw "(?i)".toList = false →
      buildSearchPattern kw = "(?i)".toList ++ kw)
    ∧ (∀ kw : Str, goContains kw "(?i)".toList = false →
        (buildSearchPattern kw = specSearchPattern kw ↔ quoteMeta kw = kw)) := by
  constructor
  · intro kw h
    unfold buildSearchPattern
    rw [h, if_neg Bool.false_ne_true]
  · intro kw h
    have hb : buildSearchPattern kw = "(?i)".toList ++ kw := by
      unfold buildSearchPattern
      rw [h, if_neg Bool.false_ne_true]
    rw [hb]
    unfold specSearchPattern
    rw [List.append_right_inj]
    exact eq_comm

/-- Witness for `search_pattern_wraps_without_escaping` at the keyword
`connect`. -/
theorem search_pattern_wraps_without_escaping_w :
    buildSearchPattern "connect".toList = "(?i)".toList ++ "connect".toList
    ∧ (buildSearchPattern "connect".toList = specSearchPattern "connect".toList ↔
        quoteMeta "connect".toList = "connect".toList) :=
  ⟨search_pattern_wraps_without_escaping.1 "connect".toList (by decide),
   search_pattern_wraps_without_escaping.2 "connect".toList (by decide)⟩

/-- C5 (counterexample): `normalize` is not idempotent for every
parseable input with a two-label extracted host.  `"a.b@c"` parses with
extracted host `"a.b@c"` (two dot-separated labels) and normalizes to
`"http://a.b@c"`, but re-normalizing fails with the domain-missing
error: on the second parse `a.b` becomes userinfo and the host is the
single-label `c`.  Similarly `"a.b/c:80"` normalizes to
`"http://a.bc:80"`, which re-normalizes to the different
`"http://a.bc"` (`:80` is now a port and is stripped), and `"[a.b"`
normalizes to `"http://[a.b"`, which fails to re-parse (bracketed
host).  All three pairs agree with Go `net/url` semantics. -/
theorem normalizeURL_idem_counterexample :
    (parseURL "a.b@c".toList = .ok ⟨[], [], "a.b@c".toList⟩
      ∧ 2 ≤ (goSplit '.' (canonHost ⟨[], [], "a.b@c".toList⟩)).length
      ∧ normalizeURL "a.b@c".toList = .ok "http://a.b@c".toList
      ∧ normalizeURL "http://a.b@c".toList = .error .errDomainMissing)
    ∧ (normalizeURL "a.b/c:80".toList = .ok "http://a.bc:80".toList
      ∧ normalizeURL "http://a.bc:80".toList = .ok "http://a.bc".toList
      ∧ ("http://a.bc".toList : Str) ≠ "http://a.bc:80".toList)
    ∧ (normalizeURL "[a.b".toList = .ok "http://[a.b".toList
      ∧ normalizeURL "http://[a.b".toList = .error (.parseErr .bracketHost)) :=
  ⟨⟨by decide, by decide, by decide, by decide⟩,
   ⟨by decide, by decide, by decide⟩,
   ⟨by decide, by decide⟩⟩

/-- Witness for `normalizeURL_idem` at `"facebook.com/"`, whose
canonical form `"http://facebook.com"` re-normalizes to itself. -/
theorem normalizeURL_idem_w :
    normalizeURL "http://facebook.com".toList = .ok "http://facebook.com".toList :=
  @normalizeURL_idem "facebook.com/".toList "http://facebook.com".toList
    ⟨[], [], "facebook.com/".toList⟩
    (by decide) (by decide) (by decide) (by decide) (by decide)

/-- C6: crawler failure degrades to `[baseURL]` and is non-fatal: when
the goquery document fetch/parse fails (`doc = none`), `linksToCheck`
returns exactly `[baseURL]` for every limit; and a `Search` call whose
normalization and page fetches succeed returns no error even though its
crawl failed. -/
theorem crawler_failure_degrades :
    (∀ (baseURL : Str) (limit : Int), linksToCheck baseURL limit none = [baseURL])
    ∧ (∀ (sc : Scanner) (env : ScanEnv) (URL kw nu : Str),
        normalizeURL URL = .ok nu → env.anchors = none →
        (∀ u, (env.fetch u).isSome = true) →
        (Search sc env URL kw).err = none) := by
  constructor
  · exact linksToCheck_none
  · intro sc env URL kw nu h1 h2 h3
    simp only [Search, h1]
    rw [h2, linksToCheck_none]
    exact searchLoop_no_error h3 _ _

/-- Witness for `crawler_failure_degrades` at a concrete failing-crawl
environment whose page fetches succeed. -/
theorem crawler_failure_degrades_w :
    linksToCheck "x.y".toList 3 none = ["x.y".toList]
    ∧ (Search ⟨5⟩ ⟨fun _ => some [], none, fun _ _ => false, fun _ _ => [], fun _ _ => []⟩
        "a.b".toList "k".toList).err = none :=
  ⟨crawler_failure_degrades.1 "x.y".toList 3,
   crawler_failure_degrades.2 ⟨5⟩
     ⟨fun _ => some [], none, fun _ _ => false, fun _ _ => [], fun _ _ => []⟩
     "a.b".toList "k".toList "http://a.b".toList (by decide) rfl (fun _ => rfl)⟩

/-- C7: every scan operation (`Search`, `SearchWithRegx`,
`SearchForEmail`) produces the gate trace `[acquire, release]` on every
exit path — normalization error, fetch error, and success alike — and a
gate of capacity `n` started within capacity never reaches an occupancy
above `n` on any runnable schedule (the bound holds for every event
list, hence for every prefix of a schedule). -/
theorem gate_balanced_and_bounded :
    (∀ (sc : Scanner) (env : ScanEnv) (URL kw : Str),
      (Search sc env URL kw).events = [.acquire, .release])
    ∧ (∀ (env : ScanEnv) (URL pat : Str),
        (SearchWithRegx env URL pat).events = [.acquire, .release])
    ∧ (∀ (sc : Scanner) (env : ScanEnv) (URL : Str) (pat : Option Str) (filters : List Str),
        (SearchForEmail sc env URL pat filters).events = [.acquire, .release])
    ∧ (∀ (n : Nat) (es : List GateEvent) (occ occ2 : Nat),
        occ ≤ n → gateRun n es occ = some occ2 → occ2 ≤ n) := by
  refine ⟨?_, ?_, ?_, ?_⟩
  · intro sc env URL kw
    cases h : normalizeURL URL <;> simp [Search, h]
  · intro env URL pat
    cases h : normalizeURL URL with
    | error e => simp [SearchWithRegx, h]
    | ok nu =>
      cases hf : fetchWithRetry env nu with
      | error e => simp [SearchWithRegx, h, hf]
      | ok p =>
        obtain ⟨u2, body⟩ := p
        simp [SearchWithRegx, h, hf]
  · intro sc env URL pat filters
    cases h : normalizeURL URL <;> simp [SearchForEmail, h]
  · intro n es occ occ2 h1 h2
    exact gateRun_le h1 h2

/-- Witness for `gate_balanced_and_bounded` at a concrete scan and a
concrete gate run of capacity 2. -/
theorem gate_balanced_and_bounded_w :
    (Search ⟨0⟩ ⟨fun _ => some [], none, fun _ _ => false, fun _ _ => [], fun _ _ => []⟩
      "a.b".toList "k".toList).events = [.acquire, .release]
    ∧ (0 : Nat) ≤ 2 :=
  ⟨gate_balanced_and_bounded.1 ⟨0⟩
      ⟨fun _ => some [], none, fun _ _ => false, fun _ _ => [], fun _ _ => []⟩
      "a.b".toList "k".toList,
   gate_balanced_and_bounded.2.2.2 2 [.acquire, .release] 0 0 (by decide) (by decide)⟩

/-- C8 (counterexample): a `Search` result can have `Found = true` with
an empty context string.  The oracle records what Go's regexp engine
does for keyword `connect` on the tag-free body `connect`: the search
pattern `(?i)connect` matches, while the enclosing-tag pattern
`(?i)(<[^<]+)(connect)([^>]+>)` has no match, so `Find` returns the
empty string and the recorded context is `""` despite `Found = true`. -/
theorem found_with_empty_context_cex :
    (Search ⟨0⟩ ⟨fun _ => some "connect".toList, none, fun _ _ => true, fun _ _ => [],
        fun _ _ => []⟩ "a.b".toList "connect".toList).results
      = [⟨.str "connect".toList, "http://a.b".toList, true, .str []⟩]
    ∧ ∃ r ∈ (Search ⟨0⟩ ⟨fun _ => some "connect".toList, none, fun _ _ => true,
        fun _ _ => [], fun _ _ => []⟩ "a.b".toList "connect".toList).results,
        r.found = true ∧ r.context = .str [] :=
  ⟨by decide, by decide⟩

/-- C8 (amended): in a keyword scan every recorded result with
`Found = true` carries as context exactly the newline-stripped first
match of the enclosing-tag context pattern on the fetched body — which
is the empty string when that pattern finds no enclosing tag, as §4.6 of
the spec itself states. -/
theorem context_from_context_regex (sc : Scanner) (env : ScanEnv) (URL kw : Str) (r : Result)
    (hr : r ∈ (Search sc env URL kw).results) (hf : r.found = true) :
    ∃ u2 body, env.fetch u2 = some body
      ∧ r.context = .str (newLineReplace (env.rfind (buildContextPattern kw) body)) := by
  cases hn : normalizeURL URL with
  | error e =>
    simp only [Search, hn] at hr
    simp at hr
  | ok nu =>
    simp only [Search, hn] at hr
    rcases searchLoop_mem hr with habs | ⟨u2, body, hfb, hreq⟩
    · simp at habs
    · subst hreq
      refine ⟨u2, body, hfb, ?_⟩
      have hm : env.rmatch (buildSearchPattern kw) body = true := hf
      simp only [hm, if_pos]

/-- Witness for `context_from_context_regex` at an environment whose
context pattern does find an enclosing tag. -/
theorem context_from_context_regex_w :
    ∃ u2 body,
      (⟨fun _ => some "connect".toList, none, fun _ _ => true,
          fun _ _ => "<a>connect</a>".toList, fun _ _ => []⟩ : ScanEnv).fetch u2 = some body
      ∧ (⟨.str "connect".toList, "http://a.b".toList, true,
            .str (newLineReplace "<a>connect</a>".toList)⟩ : Result).context
        = .str (newLineReplace
            ((⟨fun _ => some "connect".toList, none, fun _ _ => true,
                fun _ _ => "<a>connect</a>".toList, fun _ _ => []⟩ : ScanEnv).rfind
              (buildContextPattern "connect".toList) body)) :=
  context_from_context_regex ⟨0⟩
    ⟨fun _ => some "connect".toList, none, fun _ _ => true,
      fun _ _ => "<a>connect</a>".toList, fun _ _ => []⟩
    "a.b".toList "connect".toList
    ⟨.str "connect".toList, "http://a.b".toList, true,
      .str (newLineReplace "<a>connect</a>".toList)⟩
    (by decide) (by decide)

/-- C9 (counterexample): with the filter list `["a", "b"]`, the match
`xay` — which CONTAINS the filter `a` — is still recorded, because the
source appends a match whenever it lacks SOME filter (here `b`); a
match is excluded only when it contains EVERY filter. -/
theorem email_filter_any_cex :
    (SearchForEmail ⟨0⟩ ⟨fun _ => some [], none, fun _ _ => false, fun _ _ => [],
        fun _ _ => ["xay".toList]⟩ "a.b".toList none ["a".toList, "b".toList]).results
      = [⟨.str [], "http://a.b".toList, true, .list ["xay".toList]⟩]
    ∧ goContains "xay".toList "a".toList = true :=
  ⟨by decide, by decide⟩

/-- C9 (amended): `SearchForEmail` substitutes `EmailRegex` when no
pattern is supplied; every recorded match list is duplicate-free and
preserves first-seen order (a sublist of the engine's submatch list);
and with a non-empty filter list a match is recorded iff it is longer
than one character and lacks at least one filter substring — i.e. it is
excluded only when it contains every filter, not when it contains any
one. -/
theorem email_scan_behavior :
    (∀ (sc : Scanner) (env : ScanEnv) (URL : Str) (filters : List Str),
      SearchForEmail sc env URL none filters
        = SearchForEmail sc env URL (some EmailRegex) filters)
    ∧ (∀ (filters emails : List Str),
        (buildClean filters emails).Nodup ∧ (buildClean filters emails).Sublist emails)
    ∧ (∀ (filters emails : List Str) (x : Str), filters ≠ [] →
        (x ∈ buildClean filters emails ↔
          x ∈ emails ∧ 1 < x.length ∧ ∃ f ∈ filters, goContains x f = false))
    ∧ (∀ (sc : Scanner) (env : ScanEnv) (URL : Str) (pat : Option Str) (filters : List Str)
        (r : Result), r ∈ (SearchForEmail sc env URL pat filters).results →
        ∃ emails, r.context = .list (buildClean filters emails)) := by
  refine ⟨?_, ?_, ?_, ?_⟩
  · intro sc env URL filters
    rfl
  · intro filters emails
    exact ⟨buildClean_nodup filters emails, buildClean_sublist filters emails⟩
  · intro filters emails x hf
    exact buildClean_mem hf emails
  · intro sc env URL pat filters r hr
    cases hn : normalizeURL URL with
    | error e =>
      simp only [SearchForEmail, hn] at hr
      simp at hr
    | ok nu =>
      simp only [SearchForEmail, hn] at hr
      rcases emailLoop_mem hr with habs | ⟨u2, body, -, hreq⟩
      · simp at habs
      · subst hreq
        exact ⟨_, rfl⟩

/-- Witness for `email_scan_behavior`: the membership characterization
at the counterexample values, and a recorded-context instance from a
concrete scan. -/
theorem email_scan_behavior_w :
    ("xay".toList ∈ buildClean ["a".toList, "b".toList] ["xay".toList] ↔
      "xay".toList ∈ ["xay".toList] ∧ 1 < "xay".toList.length
        ∧ ∃ f ∈ ["a".toList, "b".toList], goContains "xay".toList f = false)
    ∧ ∃ emails, (Result.mk (.str []) "http://a.b".toList true
          (.list (buildClean ["a".toList] ["xay".toList]))).context
        = .list (buildClean ["a".toList] emails) :=
  ⟨email_scan_behavior.2.2.1 ["a".toList, "b".toList] ["xay".toList] "xay".toList (by decide),
   email_scan_behavior.2.2.2 ⟨0⟩
     ⟨fun _ => some [], none, fun _ _ => false, fun _ _ => [], fun _ _ => ["xay".toList]⟩
     "a.b".toList none ["a".toList]
     (Result.mk (.str []) "http://a.b".toList true
       (.list (buildClean ["a".toList] ["xay".toList])))
     (by decide)⟩

/-- C10: the canonical URL is built only from scheme, host and (when it
has more than one `/`) the path: everything after the first `#`
(fragment) is ignored, everything after the first `?` (query, within
the non-fragment part) is ignored, and consequently the canonical
output never contains `?` or `#`. -/
theorem normalizeURL_query_fragment_dropped :
    (∀ a junk : Str, a ≠ [] → '#' ∉ a →
      normalizeURL (a ++ '#' :: junk) = normalizeURL a)
    ∧ (∀ a junk : Str, a ≠ [] → '#' ∉ a → '?' ∉ a → '#' ∉ junk →
        normalizeURL (a ++ '?' :: junk) = normalizeURL a)
    ∧ (∀ x s : Str, normalizeURL x = .ok s → '?' ∉ s ∧ '#' ∉ s) := by
  refine ⟨?_, ?_, ?_⟩
  · intro a junk ha hh
    exact normalizeURL_drops_fragment junk ha hh
  · intro a junk ha hh hq hhj
    exact normalizeURL_drops_query junk ha hh hq hhj
  · intro x s hn
    exact canonicalOf_pure hn

/-- Witness for `normalizeURL_query_fragment_dropped` at
`"http://a.b"` with a fragment, a query, and its own canonical output. -/
theorem normalizeURL_query_fragment_dropped_w :
    normalizeURL ("http://a.b".toList ++ '#' :: "f".toList) = normalizeURL "http://a.b".toList
    ∧ normalizeURL ("http://a.b".toList ++ '?' :: "q".toList) = normalizeURL "http://a.b".toList
    ∧ ('?' ∉ "http://a.b".toList ∧ '#' ∉ "http://a.b".toList) :=
  ⟨normalizeURL_query_fragment_dropped.1 "http://a.b".toList "f".toList (by decide) (by decide),
   normalizeURL_query_fragment_dropped.2.1 "http://a.b".toList "q".toList (by decide) (by decide)
     (by decide) (by decide),
   normalizeURL_query_fragment_dropped.2.2 "http://a.b".toList "http://a.b".toList (by decide)⟩
